import Mathlib

/-!
Verification of the flow-sensitive linting core of StevenACoffman/fixer.

This file gives a shallow embedding, in Lean, of the three analyses the
specification covers:

* the Return-Immediately-After-Call policy (src/linters/http_return.go),
* the Log-Exclusive-Or-Return policy (src/linters/log_or_return_error_lint.go),
* the Ownership/Escape tracker (src/linters/always_close.go),

together with theorems settling the frozen claims about them.

Modelling conventions:

* Go AST nodes are the inductive type Node below, restricted to the node
  kinds these linters inspect; ast.Inspect callbacks become structural
  recursion over Node.
* Symbol resolution and type information are external collaborators
  (spec sections 2 and 6): an identifier carries the result of resolution
  as an Option Obj, and an Obj carries the externally supplied answers
  (qualified name, the printed type, the receiver type for methods, and
  whether the type has a Close() error method).
* Go maps become association lists; map values that are Go pointers to
  positions become Option Nat.  Where reference (aliasing) semantics of Go
  maps matters (the logged-errors state forked at branches), maps live in
  an explicit store (a list of maps) and are passed as indices into it.
* token.Pos is a Nat.  pass.Reportf becomes appending a Diag record.
* The recursive CFG traversal of the log-or-return linter is embedded with
  an explicit fuel parameter; running out of fuel yields none.  Termination
  of the Go recursion corresponds to the theorem that a fuel computed from
  the CFG size always suffices.
-/

/-- Result of external symbol resolution for one program entity
(types.Object): a stable identity plus the externally supplied type facts
the linters consult. -/
structure Obj where
  /-- stable identity of the symbol -/
  id : Nat
  /-- qualified name as printed by lintutil.NameOf, e.g. "net/http.Error" -/
  name : String
  /-- the printed static type, obj.Type().String() -/
  typeStr : String
  /-- for a method object, the printed receiver type; none otherwise -/
  recvTypeStr : Option String
  /-- whether types.LookupFieldOrMethod finds a Close() error method on the
  type of this object (used by always_close.go) -/
  closable : Bool
deriving DecidableEq, Repr

/-- Go AST fragment traversed by the three linters.  Child order in each
constructor matches the order ast.Inspect visits children in Go. -/
inductive Node where
  /-- ast.Ident, carrying its source name, position, and the (external)
  symbol-resolution result -/
  | ident (name : String) (pos : Nat) (obj : Option Obj)
  /-- ast.SelectorExpr; in Go the Sel child is always an Ident -/
  | selector (x : Node) (sel : Node)
  /-- ast.StarExpr -/
  | star (x : Node)
  /-- ast.UnaryExpr, e.g. address-of -/
  | unary (x : Node)
  /-- ast.ParenExpr -/
  | paren (x : Node)
  /-- ast.IndexExpr -/
  | index (x : Node) (idx : Node)
  /-- ast.TypeAssertExpr (the type child is not modelled; no linter
  inspects it) -/
  | typeAssert (x : Node)
  /-- ast.CallExpr -/
  | call (fn : Node) (args : List Node)
  /-- ast.KeyValueExpr -/
  | keyValue (k : Node) (v : Node)
  /-- ast.CompositeLit -/
  | compositeLit (elts : List Node)
  /-- ast.BasicLit -/
  | basicLit (pos : Nat)
  /-- ast.FuncLit with its body statements -/
  | funcLit (body : List Node)
  /-- ast.AssignStmt -/
  | assign (lhs : List Node) (rhs : List Node)
  /-- ast.ReturnStmt -/
  | ret (results : List Node)
  /-- ast.ExprStmt -/
  | exprStmt (x : Node)
deriving Repr

/-- Basic block of the control-flow graph supplied by the external CFG
provider (golang.org/x/tools/go/cfg): liveness flag, statement nodes,
successor edges (as indices into the block list), and the block index. -/
structure Block where
  live : Bool
  nodes : List Node
  succs : List Nat
  index : Nat
deriving Repr

/-- Control-flow graph: the ordered list of basic blocks of one function. -/
structure CFG where
  blocks : List Block
deriving Repr

/-- Diagnostic reported through pass.Reportf: a source position and a
message. -/
structure Diag where
  pos : Nat
  msg : String
deriving DecidableEq, Repr

/-- Modelled from the spec: lintutil.ObjectFor is not under src/.  Per spec
sections 2 and 6 symbol resolution maps an identifier occurrence to a
Symbol or none; a selector denotes the symbol of its Sel identifier (the
linters rely on this when resolving method calls such as ctx.Log().Warn);
all other expressions are not identifier occurrences and resolve to
none. -/
def ObjectFor : Node → Option Obj
  | .ident _ _ obj => obj
  | .selector _ sel => ObjectFor sel
  | _ => none

/-- Modelled from the spec: lintutil.NameOf is not under src/.  It renders
the qualified name of a resolved symbol (e.g. "net/http.Error"); an
unresolved symbol has no name. -/
def NameOf : Option Obj → String
  | none => ""
  | some o => o.name

/-! Return-Immediately-After-Call policy, from src/linters/http_return.go. -/

/-- Later-some-wins combination: ast.Inspect assigns ret on every match, so
the value after visiting a list of children is the last match, falling back
to the earlier result. -/
def overrideOpt : Option α → Option α → Option α
  | a, none => a
  | _, some b => some b

mutual
/-- Embedding of mustReturnAfter (src/linters/http_return.go lines
117-134): pre-order scan of the node for an identifier whose resolved name
is net/http.Error or net/http.Redirect; the last match wins; function
literals are not entered. -/
def mustReturnAfter : Node → Option (Nat × Option Obj)
  | .ident _ pos obj =>
    if NameOf obj = "net/http.Error" ∨ NameOf obj = "net/http.Redirect" then
      some (pos, obj)
    else
      none
  | .funcLit _ => none
  | .selector x sel => overrideOpt (mustReturnAfter x) (mustReturnAfter sel)
  | .star x => mustReturnAfter x
  | .unary x => mustReturnAfter x
  | .paren x => mustReturnAfter x
  | .index x idx => overrideOpt (mustReturnAfter x) (mustReturnAfter idx)
  | .typeAssert x => mustReturnAfter x
  | .call fn args => overrideOpt (mustReturnAfter fn) (mustReturnAfterList args)
  | .keyValue k v => overrideOpt (mustReturnAfter k) (mustReturnAfter v)
  | .compositeLit elts => mustReturnAfterList elts
  | .basicLit _ => none
  | .assign lhs rhs => overrideOpt (mustReturnAfterList lhs) (mustReturnAfterList rhs)
  | .ret results => mustReturnAfterList results
  | .exprStmt x => mustReturnAfter x

/-- Scan of a list of children in visit order, last match winning. -/
def mustReturnAfterList : List Node → Option (Nat × Option Obj)
  | [] => none
  | n :: rest => overrideOpt (mustReturnAfter n) (mustReturnAfterList rest)
end

/-- Whether the node is an ast.ReturnStmt (the type test in line 93 of
src/linters/http_return.go). -/
def isReturnStmt : Node → Bool
  | .ret _ => true
  | _ => false

/-- Diagnostic emitted by the report closure in lines 82-86 of
src/linters/http_return.go: positioned at the matched identifier. -/
def reportHTTP (mr : Nat × Option Obj) : Diag :=
  ⟨mr.1, "HTTP handlers (or helpers) must return after calling " ++ NameOf mr.2⟩

/-- Statement loop of checkCFG (src/linters/http_return.go lines 90-111)
for one block: mr is the mustReturn variable; after scanning the nodes, the
end-of-block check fires when mustReturn is set and the block has
successors. -/
def runBlockHTTP (mr : Option (Nat × Option Obj)) (nodes : List Node)
    (hasSucc : Bool) : List Diag :=
  match nodes with
  | [] =>
    match mr, hasSucc with
    | some m, true => [reportHTTP m]
    | _, _ => []
  | n :: rest =>
    (match mr with
     | some m => if isReturnStmt n then [] else [reportHTTP m]
     | none => []) ++ runBlockHTTP (mustReturnAfter n) rest hasSucc

/-- Embedding of checkCFG (src/linters/http_return.go lines 71-113): every
live block is scanned independently with the mustReturn state starting
empty. -/
def checkCFG (g : CFG) : List Diag :=
  g.blocks.foldl
    (fun ds b =>
      if b.live then ds ++ runBlockHTTP none b.nodes (!b.succs.isEmpty)
      else ds)
    []

/-! Error-result discovery, from src/linters/log_or_return_error_lint.go. -/

/-- One field of a result list: the declared names (empty for an unnamed
result) and, when the type expression is a plain identifier, its name. -/
structure ResultField where
  names : List String
  tyIdent : Option String
deriving DecidableEq, Repr

/-- Loop body of errorResultIndices (src/linters/log_or_return_error_lint.go
lines 38-55): i is the running result position; an error-typed field
appends i and continues, any other field advances i by the number of names
it declares (at least one). -/
def errorResultIndicesAux : List ResultField → Nat → List Nat
  | [], _ => []
  | f :: rest, i =>
    if f.tyIdent = some "error" then
      i :: errorResultIndicesAux rest i
    else if f.names.length > 0 then
      errorResultIndicesAux rest (i + f.names.length)
    else
      errorResultIndicesAux rest (i + 1)

/-- Embedding of errorResultIndices (src/linters/log_or_return_error_lint.go
lines 32-58): none models a signature with no result list. -/
def errorResultIndices : Option (List ResultField) → List Nat
  | none => []
  | some fields => errorResultIndicesAux fields 0

/-- Modelled from the spec (for comparison with the source function): the
result positions of a signature, counting a named group a, b T as multiple
positions, each carrying the field type. -/
def specResultPositions : List ResultField → List (Option String)
  | [] => []
  | f :: rest =>
    List.replicate (if f.names.isEmpty then 1 else f.names.length) f.tyIdent ++
      specResultPositions rest

/-- Modelled from the spec: the set of result positions whose declared type
is the identifier error (spec section 4.2.2 precondition). -/
def specErrorResultIndices : Option (List ResultField) → List Nat
  | none => []
  | some fields =>
    (specResultPositions fields).enum.filterMap
      (fun it => if it.2 = some "error" then some it.1 else none)

/-! Log-Exclusive-Or-Return policy, from
src/linters/log_or_return_error_lint.go. -/

/-- Association-list lookup (the embedding of a Go map read). -/
def alookup [DecidableEq κ] (k : κ) : List (κ × β) → Option β
  | [] => none
  | (k₁, v) :: rest => if k₁ = k then some v else alookup k rest

/-- Association-list insert-or-replace (the embedding of a Go map write). -/
def aupsert [DecidableEq κ] (k : κ) (v : β) : List (κ × β) → List (κ × β)
  | [] => [(k, v)]
  | (k₁, v₁) :: rest => if k₁ = k then (k, v) :: rest else (k₁, v₁) :: aupsert k v rest

/-- Association-list delete (the embedding of a Go map delete). -/
def aerase [DecidableEq κ] (k : κ) (l : List (κ × β)) : List (κ × β) :=
  l.filter (fun e => decide (e.1 ≠ k))

/-- State map of the policy: error symbol to logged-at site; the value none
models the nil position pointer (assigned but not yet logged). -/
abbrev LoggedMap := List (Obj × Option Nat)

/-- Embedding of receiverIsLogger (src/linters/log_lint.go lines 87-104):
the resolved callee must be a method whose receiver type prints as the
designated logger type. -/
def receiverIsLogger : Option Obj → Bool
  | none => false
  | some o =>
    match o.recvTypeStr with
    | some s => s == "github.com/Khan/webapp/pkg/lib/log.Logger"
    | none => false

/-- Message of the logged-twice report (src/linters/log_or_return_error_lint.go
lines 142-145); the previous position is rendered by the external
fileset. -/
def loggedTwiceMsg (prev : Nat) : String :=
  "This error is being logged twice. Previously logged at " ++ toString prev ++
    ". See https://khanacademy.atlassian.net/l/c/j9btTeyW"

/-- Message of the logged-and-returned report
(src/linters/log_or_return_error_lint.go lines 179-183). -/
def logAndReturnMsg (prev : Nat) : String :=
  "Errors may be logged or returned, but not both. Previously logged at " ++
    toString prev ++ ". See https://khanacademy.atlassian.net/l/c/j9btTeyW"

mutual
/-- Embedding of the inner ast.Inspect over a logger call
(src/linters/log_or_return_error_lint.go lines 128-152): every identifier
in the call (the callee includeed) that resolves to a symbol present in the
state is reported if already logged, otherwise marked logged at its own
position. -/
def scanLogCall : Node → LoggedMap → List Diag → LoggedMap × List Diag
  | .ident _ pos obj, m, ds =>
    match obj with
    | none => (m, ds)
    | some o =>
      match alookup o m with
      | none => (m, ds)
      | some (some prev) => (m, ds ++ [⟨pos, loggedTwiceMsg prev⟩])
      | some none => (aupsert o (some pos) m, ds)
  | .selector x sel, m, ds =>
    let r := scanLogCall x m ds
    scanLogCall sel r.1 r.2
  | .star x, m, ds => scanLogCall x m ds
  | .unary x, m, ds => scanLogCall x m ds
  | .paren x, m, ds => scanLogCall x m ds
  | .index x idx, m, ds =>
    let r := scanLogCall x m ds
    scanLogCall idx r.1 r.2
  | .typeAssert x, m, ds => scanLogCall x m ds
  | .call fn args, m, ds =>
    let r := scanLogCall fn m ds
    scanLogCallList args r.1 r.2
  | .keyValue k v, m, ds =>
    let r := scanLogCall k m ds
    scanLogCall v r.1 r.2
  | .compositeLit elts, m, ds => scanLogCallList elts m ds
  | .basicLit _, m, ds => (m, ds)
  | .funcLit body, m, ds => scanLogCallList body m ds
  | .assign lhs rhs, m, ds =>
    let r := scanLogCallList lhs m ds
    scanLogCallList rhs r.1 r.2
  | .ret results, m, ds => scanLogCallList results m ds
  | .exprStmt x, m, ds => scanLogCall x m ds

/-- Children of a node, in visit order, for the logger-call scan. -/
def scanLogCallList : List Node → LoggedMap → List Diag → LoggedMap × List Diag
  | [], m, ds => (m, ds)
  | n :: rest, m, ds =>
    let r := scanLogCall n m ds
    scanLogCallList rest r.1 r.2
end

mutual
/-- Embedding of the inner ast.Inspect over a returned error-position value
(src/linters/log_or_return_error_lint.go lines 172-188): every identifier
resolving to a symbol marked logged produces a logged-and-returned report
at the identifier. -/
def scanReturnValue : Node → LoggedMap → List Diag
  | .ident _ pos obj, m =>
    match obj with
    | none => []
    | some o =>
      match alookup o m with
      | some (some prev) => [⟨pos, logAndReturnMsg prev⟩]
      | _ => []
  | .selector x sel, m => scanReturnValue x m ++ scanReturnValue sel m
  | .star x, m => scanReturnValue x m
  | .unary x, m => scanReturnValue x m
  | .paren x, m => scanReturnValue x m
  | .index x idx, m => scanReturnValue x m ++ scanReturnValue idx m
  | .typeAssert x, m => scanReturnValue x m
  | .call fn args, m => scanReturnValue fn m ++ scanReturnValueList args m
  | .keyValue k v, m => scanReturnValue k m ++ scanReturnValue v m
  | .compositeLit elts, m => scanReturnValueList elts m
  | .basicLit _, _ => []
  | .funcLit body, m => scanReturnValueList body m
  | .assign lhs rhs, m => scanReturnValueList lhs m ++ scanReturnValueList rhs m
  | .ret results, m => scanReturnValueList results m
  | .exprStmt x, m => scanReturnValue x m

/-- Children of a node, in visit order, for the returned-value scan. -/
def scanReturnValueList : List Node → LoggedMap → List Diag
  | [], _ => []
  | n :: rest, m => scanReturnValue n m ++ scanReturnValueList rest m
end

/-- Assignment handling (src/linters/log_or_return_error_lint.go lines
110-118): every left-hand side that is an identifier resolving to an
error-typed symbol is (re)inserted as not-yet-logged. -/
def markAssignLhs : List Node → LoggedMap → LoggedMap
  | [], m => m
  | n :: rest, m =>
    match n with
    | .ident _ _ (some o) =>
      if o.typeStr == "error" then markAssignLhs rest (aupsert o none m)
      else markAssignLhs rest m
    | _ => markAssignLhs rest m

/-- Return handling (src/linters/log_or_return_error_lint.go lines
167-189): each error-result index inside range selects the corresponding
returned expression, which is scanned for logged symbols. -/
def scanReturnIndices (errIdx : List Nat) (results : List Node) (m : LoggedMap) :
    List Diag :=
  errIdx.foldl
    (fun ds idx =>
      match results[idx]? with
      | none => ds
      | some v => ds ++ scanReturnValue v m)
    []

mutual
/-- Embedding of the outer ast.Inspect callback over one block node
(src/linters/log_or_return_error_lint.go lines 103-199): assignments mark
their error-typed left-hand sides and are recursed into; logger calls run
the logger scan and stop; returns run the returned-value scan on the
error-result positions and stop; function literals are skipped. -/
def inspectNode (errIdx : List Nat) : Node → LoggedMap → List Diag → LoggedMap × List Diag
  | .assign lhs rhs, m, ds =>
    let m₁ := markAssignLhs lhs m
    let r := inspectNodeList errIdx lhs m₁ ds
    inspectNodeList errIdx rhs r.1 r.2
  | .call fn args, m, ds =>
    if receiverIsLogger (ObjectFor fn) then
      scanLogCall (.call fn args) m ds
    else
      let r := inspectNode errIdx fn m ds
      inspectNodeList errIdx args r.1 r.2
  | .ret results, m, ds => (m, ds ++ scanReturnIndices errIdx results m)
  | .funcLit _, m, ds => (m, ds)
  | .ident _ _ _, m, ds => (m, ds)
  | .selector x sel, m, ds =>
    let r := inspectNode errIdx x m ds
    inspectNode errIdx sel r.1 r.2
  | .star x, m, ds => inspectNode errIdx x m ds
  | .unary x, m, ds => inspectNode errIdx x m ds
  | .paren x, m, ds => inspectNode errIdx x m ds
  | .index x idx, m, ds =>
    let r := inspectNode errIdx x m ds
    inspectNode errIdx idx r.1 r.2
  | .typeAssert x, m, ds => inspectNode errIdx x m ds
  | .keyValue k v, m, ds =>
    let r := inspectNode errIdx k m ds
    inspectNode errIdx v r.1 r.2
  | .compositeLit elts, m, ds => inspectNodeList errIdx elts m ds
  | .basicLit _, m, ds => (m, ds)
  | .exprStmt x, m, ds => inspectNode errIdx x m ds

/-- Children of a node, in visit order, for the outer callback. -/
def inspectNodeList (errIdx : List Nat) : List Node → LoggedMap → List Diag → LoggedMap × List Diag
  | [], m, ds => (m, ds)
  | n :: rest, m, ds =>
    let r := inspectNode errIdx n m ds
    inspectNodeList errIdx rest r.1 r.2
end

/-- Statement loop over the nodes of one block
(src/linters/log_or_return_error_lint.go line 102). -/
def runNodes (errIdx : List Nat) (nodes : List Node) (m : LoggedMap)
    (ds : List Diag) : LoggedMap × List Diag :=
  inspectNodeList errIdx nodes m ds

/-- Placeholder block used for an out-of-range index; it is dead, so the
traversal ignores it (a well-formed CFG never reaches this case). -/
def deadBlock : Block := ⟨false, [], [], 0⟩

/-- Traversal state of the engine: the store of logged-error maps (Go maps
are reference values, so the state forked at branches is a reference into
this store), the accumulated diagnostics, and the per-edge traversal
counters. -/
structure EngineSt where
  store : List LoggedMap
  diags : List Diag
  tp : List ((Nat × Nat) × Nat)
deriving DecidableEq, Repr

/-- Child invocation of the successor loop
(src/linters/log_or_return_error_lint.go lines 213-221): every successor
but the last receives a freshly allocated copy of the current map; the last
receives the original reference. -/
def succChild (recur : Nat → Nat → EngineSt → Option EngineSt) (r : Nat)
    (s : Nat) (isLast : Bool) (st : EngineSt) : Option EngineSt :=
  if isLast then recur s r st
  else recur s st.store.length { st with store := st.store ++ [st.store.getD r []] }

/-- Successor loop (src/linters/log_or_return_error_lint.go lines 202-222):
each edge carries a counter; an edge already traversed more than once is
skipped, otherwise its counter is bumped and the successor analyzed. -/
def succRun (recur : Nat → Nat → EngineSt → Option EngineSt) (g : CFG)
    (bIndex : Nat) (r : Nat) : List Nat → EngineSt → Option EngineSt
  | [], st => some st
  | s :: rest, st =>
    let key := (bIndex, (g.blocks.getD s deadBlock).index)
    match alookup key st.tp with
    | some times =>
      if times > 1 then succRun recur g bIndex r rest st
      else
        match succChild recur r s rest.isEmpty { st with tp := aupsert key (times + 1) st.tp } with
        | none => none
        | some st₁ => succRun recur g bIndex r rest st₁
    | none =>
      match succChild recur r s rest.isEmpty { st with tp := aupsert key 1 st.tp } with
      | none => none
      | some st₁ => succRun recur g bIndex r rest st₁

/-- Embedding of checkBlockForLogsAndReturns
(src/linters/log_or_return_error_lint.go lines 91-223), with fuel bounding
the recursion depth (none = fuel exhausted; the termination theorem shows a
fuel computed from the CFG size suffices).  A dead block is skipped; a live
block's nodes are scanned against the map at reference r, then the
successor loop runs. -/
def checkBlockForLogsAndReturns : Nat → CFG → List Nat → Nat → Nat → EngineSt → Option EngineSt
  | 0, _, _, _, _, _ => none
  | fuel + 1, g, errIdx, bIdx, r, st =>
    let b := g.blocks.getD bIdx deadBlock
    if b.live then
      let rNodes := runNodes errIdx b.nodes (st.store.getD r []) st.diags
      succRun (fun s r₁ st₂ => checkBlockForLogsAndReturns fuel g errIdx s r₁ st₂)
        g b.index r b.succs ⟨st.store.set r rNodes.1, rNodes.2, st.tp⟩
    else
      some st

/-- Embedding of lintLogOrReturnErrors
(src/linters/log_or_return_error_lint.go lines 227-231): the traversal
starts at block 0 with one empty map and no traversed edges. -/
def lintLogOrReturnErrors (fuel : Nat) (errIdx : List Nat) (g : CFG) :
    Option EngineSt :=
  checkBlockForLogsAndReturns fuel g errIdx 0 0 ⟨[[]], [], []⟩

/-! Ownership/Escape tracker, from src/linters/always_close.go. -/

/-- Embedding of isClosable (src/linters/always_close.go lines 49-57): the
external type-lookup answer whether the symbol type carries a Close() error
method; an unresolved symbol is not closable. -/
def isClosable : Option Obj → Bool
  | none => false
  | some o => o.closable

/-- Embedding of assignedFromNoOp (src/linters/always_close.go lines
60-83): the right-hand side feeding position i (the single right-hand side
when there is only one) is a no-release wrapper when it is a type assertion
or a call whose callee selector is named NopCloser. -/
def assignedFromNoOp (rhs : List Node) (i : Nat) : Bool :=
  let frm := if rhs.length = 1 then rhs.getD 0 (.basicLit 0) else rhs.getD i (.basicLit 0)
  match frm with
  | .typeAssert _ => true
  | .call fn _ =>
    match fn with
    | .selector _ (.ident n _ _) => n == "NopCloser"
    | _ => false
  | _ => false

/-- Embedding of identFromExpression (src/linters/always_close.go lines
85-104): syntactic unwrapping of selector, unary, star, paren, call and
key-value forms down to an identifier; anything else (including index and
type-assertion expressions) yields none. -/
def identFromExpression : Node → Option Node
  | .ident n p o => some (.ident n p o)
  | .selector _ sel => identFromExpression sel
  | .unary x => identFromExpression x
  | .star x => identFromExpression x
  | .paren x => identFromExpression x
  | .call fn _ => identFromExpression fn
  | .keyValue _ v => identFromExpression v
  | _ => none

/-- Embedding of isCallToCloser (src/linters/always_close.go lines
106-114): the callee expression is unwrapped to an identifier whose symbol
must carry the IsResourceCloser fact (the fact store is the closers
list). -/
def isCallToCloser (closers : List Obj) : Node → Bool
  | .call fn _ =>
    match identFromExpression fn with
    | none => false
    | some i =>
      match ObjectFor i with
      | none => false
      | some o => closers.contains o
  | _ => false

/-- Tracked set of the ownership pass: closable symbol to the position of
its acquiring left-hand-side identifier. -/
abbrev Closables := List (Obj × Nat)

/-- Left-hand-side loop of the acquisition pass
(src/linters/always_close.go lines 120-127): an identifier on the left
whose symbol is closable and whose feeding right-hand side is not a
no-release wrapper is tracked at its position. -/
def collectLhs : List Node → List Node → Nat → Closables → Closables
  | [], _, _, c => c
  | v :: rest, rhs, i, c =>
    match v with
    | .ident _ pos (some o) =>
      if o.closable && !(assignedFromNoOp rhs i) then
        collectLhs rest rhs (i + 1) (aupsert o pos c)
      else
        collectLhs rest rhs (i + 1) c
    | _ => collectLhs rest rhs (i + 1) c

mutual
/-- Embedding of the first ast.Inspect of scanFuncDecl
(src/linters/always_close.go lines 118-131): every assignment in the
function (function literals included; this walk never stops recursing)
contributes its closable left-hand sides to the tracked set. -/
def collectClosables : Node → Closables → Closables
  | .assign lhs rhs, c =>
    let c₁ := collectLhs lhs rhs 0 c
    collectClosablesList rhs (collectClosablesList lhs c₁)
  | .ident _ _ _, c => c
  | .selector x sel, c => collectClosables sel (collectClosables x c)
  | .star x, c => collectClosables x c
  | .unary x, c => collectClosables x c
  | .paren x, c => collectClosables x c
  | .index x idx, c => collectClosables idx (collectClosables x c)
  | .typeAssert x, c => collectClosables x c
  | .call fn args, c => collectClosablesList args (collectClosables fn c)
  | .keyValue k v, c => collectClosables v (collectClosables k c)
  | .compositeLit elts, c => collectClosablesList elts c
  | .basicLit _, c => c
  | .funcLit body, c => collectClosablesList body c
  | .ret results, c => collectClosablesList results c
  | .exprStmt x, c => collectClosables x c

/-- Children of a node, in visit order, for the acquisition pass. -/
def collectClosablesList : List Node → Closables → Closables
  | [], c => c
  | n :: rest, c => collectClosablesList rest (collectClosables n c)
end

/-- Delete helper: removing a possibly unresolved symbol from the tracked
set (deleting a nil key from a Go map is a no-op). -/
def deleteObj (o : Option Obj) (c : Closables) : Closables :=
  match o with
  | some o => aerase o c
  | none => c

/-- Closer-call release (src/linters/always_close.go lines 139-144): each
argument is resolved directly (no unwrapping) and deleted. -/
def deleteArgs (args : List Node) (c : Closables) : Closables :=
  args.foldl (fun c a => deleteObj (ObjectFor a) c) c

/-- Escape through assignment sources or composite-literal elements
(src/linters/always_close.go lines 148-164): each expression is unwrapped
to an identifier, resolved, and deleted. -/
def deleteSources (es : List Node) (c : Closables) : Closables :=
  es.foldl
    (fun c e =>
      deleteObj
        (match identFromExpression e with
         | some i => ObjectFor i
         | none => none)
        c)
    c

/-- Escape through return (src/linters/always_close.go lines 165-174):
each result is unwrapped to an identifier and, when one exists, resolved
and deleted. -/
def deleteRetResults (es : List Node) (c : Closables) : Closables :=
  es.foldl
    (fun c e =>
      match identFromExpression e with
      | some i => deleteObj (ObjectFor i) c
      | none => c)
    c

mutual
/-- Embedding of the second ast.Inspect of scanFuncDecl
(src/linters/always_close.go lines 136-178): closer calls release their
directly-resolved arguments, Close method calls release their receiver,
and assignment sources, composite-literal elements and returned results
escape; the walk always recurses. -/
def cancelPass (closers : List Obj) : Node → Closables → Closables
  | .call fn args, c =>
    let c₁ :=
      if isCallToCloser closers (.call fn args) then
        deleteArgs args c
      else
        match fn with
        | .selector x (.ident selName _ _) =>
          if selName == "Close" then deleteObj (ObjectFor x) c else c
        | _ => c
    cancelPassList closers args (cancelPass closers fn c₁)
  | .assign lhs rhs, c =>
    let c₁ := deleteSources rhs c
    cancelPassList closers rhs (cancelPassList closers lhs c₁)
  | .compositeLit elts, c => cancelPassList closers elts (deleteSources elts c)
  | .ret results, c => cancelPassList closers results (deleteRetResults results c)
  | .ident _ _ _, c => c
  | .selector x sel, c => cancelPass closers sel (cancelPass closers x c)
  | .star x, c => cancelPass closers x c
  | .unary x, c => cancelPass closers x c
  | .paren x, c => cancelPass closers x c
  | .index x idx, c => cancelPass closers idx (cancelPass closers x c)
  | .typeAssert x, c => cancelPass closers x c
  | .keyValue k v, c => cancelPass closers v (cancelPass closers k c)
  | .basicLit _, c => c
  | .funcLit body, c => cancelPassList closers body c
  | .exprStmt x, c => cancelPass closers x c

/-- Children of a node, in visit order, for the release/escape pass. -/
def cancelPassList (closers : List Obj) : List Node → Closables → Closables
  | [], c => c
  | n :: rest, c => cancelPassList closers rest (cancelPass closers n c)
end

/-- Embedding of scanFuncDecl (src/linters/always_close.go lines 116-183)
up to reporting: the acquisition pass fills the tracked set; when it is
empty the function is done, otherwise the release/escape pass prunes
it.  The survivors are what the final loop reports. -/
def scanFuncDecl (closers : List Obj) (body : List Node) : Closables :=
  let closables := collectClosablesList body []
  if closables.isEmpty then [] else cancelPassList closers body closables

/-- Diagnostic of the final report loop (src/linters/always_close.go lines
180-182), positioned at the acquisition site and naming the type. -/
def needsCloseDiag (o : Obj) (pos : Nat) : Diag :=
  ⟨pos, o.typeStr ++ " needs to be closed"⟩

/-- Final report loop (src/linters/always_close.go lines 180-182).  The Go
code ranges over a map, whose iteration order the language leaves
unspecified; the order argument is that oracle: an admissible run supplies
any enumeration of the tracked symbols (each exactly once). -/
def reportClosables (order : List Obj) (c : Closables) : List Diag :=
  order.filterMap (fun o => (alookup o c).map (fun pos => needsCloseDiag o pos))

/-- One run of the ownership tracker on a function body under a given map
iteration order. -/
def alwaysCloseRun (closers : List Obj) (order : List Obj) (body : List Node) :
    List Diag :=
  reportClosables order (scanFuncDecl closers body)

/-! Concrete example programs used by counterexamples and witnesses. -/

/-- Resolved symbol of net/http.Error. -/
def oHTTPErr : Obj := ⟨1, "net/http.Error", "func", none, false⟩

/-- Statement http.Error(...), the must-return call of the examples. -/
def exCall : Node :=
  .exprStmt (.call (.selector (.ident "http" 10 none) (.ident "Error" 11 (some oHTTPErr))) [])

/-- Statement log(x), a harmless following statement at position 20. -/
def exLog : Node := .exprStmt (.call (.ident "log" 20 none) [.ident "x" 21 none])

/-- Statement log(y), a second harmless following statement. -/
def exLog2 : Node := .exprStmt (.call (.ident "log" 25 none) [.ident "y" 26 none])

/-- CFG of a function body http.Error(); log(x); log(y); return, one live
block. -/
def gC1 : CFG := ⟨[⟨true, [exCall, exLog, exLog2, .ret []], [], 0⟩]⟩

/-- CFG of a function body http.Error(); log(x); return, one live block. -/
def gC2 : CFG := ⟨[⟨true, [exCall, exLog, .ret []], [], 0⟩]⟩

/-! Claim C1. -/

/-- Pair scan giving, for the amended claim C1, the reports of the
statement loop: a report fires at a statement exactly when the immediately
preceding statement contains a must-return call and the statement is not a
return. -/
def followReports (nodes : List Node) : List Diag :=
  (nodes.zip nodes.tail).filterMap
    (fun p =>
      match mustReturnAfter p.1 with
      | some m => if isReturnStmt p.2 then none else some (reportHTTP m)
      | none => none)

/-- End-of-block report for the amended claim C1: fires when the last
statement contains a must-return call and the block has successors. -/
def endReport (nodes : List Node) (hasSucc : Bool) : List Diag :=
  match nodes.getLast? with
  | none => []
  | some lastN =>
    match mustReturnAfter lastN, hasSucc with
    | some m, true => [reportHTTP m]
    | _, _ => []

/-- Report owed to the incoming state at the head of the node list (or at
block end when the list is empty). -/
def firstViol (mr : Option (Nat × Option Obj)) (nodes : List Node)
    (hasSucc : Bool) : List Diag :=
  match mr with
  | none => []
  | some m =>
    match nodes with
    | [] => if hasSucc then [reportHTTP m] else []
    | n :: _ => if isReturnStmt n then [] else [reportHTTP m]

/-! Claim C3. -/

/-- Signature with two unnamed error results, func() (error, error). -/
def sigTwoErrors : Option (List ResultField) := some [⟨[], some "error"⟩, ⟨[], some "error"⟩]

/-- Signature func() (e error, s string, f error): a named error result
followed by further results. -/
def sigNamedErrors : Option (List ResultField) :=
  some [⟨["e"], some "error"⟩, ⟨["s"], some "string"⟩, ⟨["f"], some "error"⟩]

/-! Claim C4. -/

/-- Function body err := doX(); logger.Warn(err); return err, parameterized
over the resolved symbols and positions. -/
def c4Body (oErr oDoX oWarn : Obj) (lgObj : Option Obj)
    (p1 p2 p3 p4 p5 p6 : Nat) : List Node :=
  [ .assign [.ident "err" p1 (some oErr)] [.call (.ident "doX" p2 (some oDoX)) []],
    .exprStmt (.call (.selector (.ident "logger" p3 lgObj) (.ident "Warn" p4 (some oWarn)))
      [.ident "err" p5 (some oErr)]),
    .ret [.ident "err" p6 (some oErr)] ]

/-! Release/escape analysis of the cancel pass, for claims C5 and C9. -/

/-- Resolution used by the escape deletions: unwrap the expression to an
identifier and resolve it. -/
def sourceObjOf (e : Node) : Option Obj :=
  match identFromExpression e with
  | some i => ObjectFor i
  | none => none

mutual
/-- Whether the release/escape pass, somewhere in this node, deletes the
symbol o: a closer call with an argument resolving directly to o, a Close
method call on o, or an assignment source, composite-literal element or
returned result unwrapping to o. -/
def hitsSym (closers : List Obj) (o : Obj) : Node → Bool
  | .call fn args =>
    (if isCallToCloser closers (.call fn args) then
      args.any (fun a => ObjectFor a == some o)
    else
      match fn with
      | .selector x (.ident selName _ _) => selName == "Close" && (ObjectFor x == some o)
      | _ => false)
    || hitsSym closers o fn || hitsSymList closers o args
  | .assign lhs rhs =>
    rhs.any (fun e => sourceObjOf e == some o)
    || hitsSymList closers o lhs || hitsSymList closers o rhs
  | .compositeLit elts =>
    elts.any (fun e => sourceObjOf e == some o) || hitsSymList closers o elts
  | .ret results =>
    results.any (fun e => sourceObjOf e == some o) || hitsSymList closers o results
  | .ident _ _ _ => false
  | .selector x sel => hitsSym closers o x || hitsSym closers o sel
  | .star x => hitsSym closers o x
  | .unary x => hitsSym closers o x
  | .paren x => hitsSym closers o x
  | .index x idx => hitsSym closers o x || hitsSym closers o idx
  | .typeAssert x => hitsSym closers o x
  | .keyValue k v => hitsSym closers o k || hitsSym closers o v
  | .basicLit _ => false
  | .funcLit body => hitsSymList closers o body
  | .exprStmt x => hitsSym closers o x

/-- List version of hitsSym, in visit order. -/
def hitsSymList (closers : List Obj) (o : Obj) : List Node → Bool
  | [] => false
  | n :: rest => hitsSym closers o n || hitsSymList closers o rest
end

mutual
/-- Whether the symbol o appears, after the unwrapping the source applies
to returned results, in some return statement inside the node. -/
def returnsSym (o : Obj) : Node → Bool
  | .ret results =>
    results.any (fun e => sourceObjOf e == some o) || returnsSymList o results
  | .ident _ _ _ => false
  | .selector x sel => returnsSym o x || returnsSym o sel
  | .star x => returnsSym o x
  | .unary x => returnsSym o x
  | .paren x => returnsSym o x
  | .index x idx => returnsSym o x || returnsSym o idx
  | .typeAssert x => returnsSym o x
  | .call fn args => returnsSym o fn || returnsSymList o args
  | .keyValue k v => returnsSym o k || returnsSym o v
  | .compositeLit elts => returnsSymList o elts
  | .basicLit _ => false
  | .funcLit body => returnsSymList o body
  | .assign lhs rhs => returnsSymList o lhs || returnsSymList o rhs
  | .exprStmt x => returnsSym o x

/-- List version of returnsSym. -/
def returnsSymList (o : Obj) : List Node → Bool
  | [] => false
  | n :: rest => returnsSym o n || returnsSymList o rest
end

/-- Lookup specification of a tracked-set transformer: the flag tells
whether it deletes the symbol o; it never touches other entries. -/
def LookupSpec (o : Obj) (f : Closables → Closables) (b : Bool) : Prop :=
  ∀ c, alookup o (f c) = if b then none else alookup o c

/-- A tracked-set transformer whose result keys form a sublist of the input
keys (the release/escape pass only deletes). -/
def KeysSub (f : Closables → Closables) : Prop :=
  ∀ c : Closables, ((f c).map Prod.fst).Sublist (c.map Prod.fst)

/-- Closable symbols of the claim C5 witness program. -/
def oR1 : Obj := ⟨5, "r1", "io.ReadCloser", none, true⟩

/-- Second closable symbol of the witness programs. -/
def oR2 : Obj := ⟨8, "r2", "os.File", none, true⟩

/-- Acquiring function symbol of the witness programs. -/
def oAcq : Obj := ⟨6, "pkg.open", "func", none, false⟩

/-- Function body r1 := open(); r2 := open(); return r1: the closable r1
escapes through return, the closable r2 is never released nor escapes. -/
def c5Body : List Node :=
  [ .assign [.ident "r1" 60 (some oR1)] [.call (.ident "open" 61 (some oAcq)) []],
    .assign [.ident "r2" 65 (some oR2)] [.call (.ident "open" 66 (some oAcq)) []],
    .ret [.ident "r1" 70 (some oR1)] ]

/-! Claim C9. -/

/-- Fact-marked closer function symbol of the claim C9 programs. -/
def oCloseIt : Obj := ⟨7, "pkg.closeIt", "func", none, false⟩

/-- Function body r := open(); closeIt(&r) where closeIt carries the
IsResourceCloser fact: the tracked closable is passed by address to the
closer. -/
def c9Body : List Node :=
  [ .assign [.ident "r" 60 (some oR1)] [.call (.ident "open" 61 (some oAcq)) []],
    .exprStmt (.call (.ident "closeIt" 70 (some oCloseIt))
      [.unary (.ident "r" 71 (some oR1))]) ]

/-! Claim C6. -/

/-- Function body r1 := open(); r2 := open() with two unreleased closables,
for the determinism claim. -/
def c6Body : List Node :=
  [ .assign [.ident "r1" 60 (some oR1)] [.call (.ident "open" 61 (some oAcq)) []],
    .assign [.ident "r2" 65 (some oR2)] [.call (.ident "open" 66 (some oAcq)) []] ]

/-! Per-symbol assignment tracking for claim C10. -/

/-- Whether a node is a left-hand-side identifier whose processing inserts
the symbol o into the logged-errors state: an identifier resolving to o
with printed type error. -/
def isAssignLhsOf (o : Obj) : Node → Bool
  | .ident _ _ (some o₁) => o₁ == o && (o₁.typeStr == "error")
  | _ => false

mutual
/-- Whether the outer callback, along its actual traversal (logger calls,
returns and function literals are not entered), meets an assignment whose
left-hand side would insert the symbol o into the logged-errors state. -/
def assignsTo (o : Obj) : Node → Bool
  | .assign lhs rhs =>
    lhs.any (isAssignLhsOf o) || assignsToList o lhs || assignsToList o rhs
  | .call fn args =>
    if receiverIsLogger (ObjectFor fn) then false
    else assignsTo o fn || assignsToList o args
  | .ret _ => false
  | .funcLit _ => false
  | .ident _ _ _ => false
  | .basicLit _ => false
  | .selector x sel => assignsTo o x || assignsTo o sel
  | .star x => assignsTo o x
  | .unary x => assignsTo o x
  | .paren x => assignsTo o x
  | .index x idx => assignsTo o x || assignsTo o idx
  | .typeAssert x => assignsTo o x
  | .keyValue k v => assignsTo o k || assignsTo o v
  | .compositeLit elts => assignsToList o elts
  | .exprStmt x => assignsTo o x

/-- List version of assignsTo. -/
def assignsToList (o : Obj) : List Node → Bool
  | [] => false
  | n :: rest => assignsTo o n || assignsToList o rest
end

/-- A CFG none of whose block nodes contains a reachable assignment to the
symbol o. -/
def noAssignOfCFG (o : Obj) (g : CFG) : Bool :=
  g.blocks.all (fun b => !assignsToList o b.nodes)

/-- The symbol o is absent from every map of the store.  The store only
ever grows and map entries are never deleted, so this over the final store
means o never entered any logged-errors state during the run. -/
def StoreNoKey (o : Obj) (store : List LoggedMap) : Prop :=
  ∀ m ∈ store, alookup o m = none

/-- Function body err2 := doX(); logger.Warn(errp); logger.Error(errp);
logger.Warn(err2); return errp - the error symbol o (errp) is never
assigned in the function (a parameter), while err2 is assigned and
tracked.  o is logged, logged a second time, and returned. -/
def c10ExemptBody (o oErr2 oDoX oWa oWb : Obj) (lgObj : Option Obj)
    (p1 p2 p3 p4 p5 p6 p7 p8 p9 p10 p11 p12 : Nat) : List Node :=
  [ .assign [.ident "err2" p1 (some oErr2)] [.call (.ident "doX" p2 (some oDoX)) []],
    .exprStmt (.call (.selector (.ident "logger" p3 lgObj) (.ident "Warn" p4 (some oWa)))
      [.ident "errp" p5 (some o)]),
    .exprStmt (.call (.selector (.ident "logger" p6 lgObj) (.ident "Error" p7 (some oWb)))
      [.ident "errp" p8 (some o)]),
    .exprStmt (.call (.selector (.ident "logger" p9 lgObj) (.ident "Warn" p10 (some oWa)))
      [.ident "err2" p11 (some oErr2)]),
    .ret [.ident "errp" p12 (some o)] ]

/-- Contrast body err2 := doX(); logger.Warn(err2); logger.Error(err2):
the same double logging performed on the assigned symbol err2. -/
def c10TrackedBody (oErr2 oDoX oWa oWb : Obj) (lgObj : Option Obj)
    (p1 p2 p3 p4 p5 p6 p7 p8 : Nat) : List Node :=
  [ .assign [.ident "err2" p1 (some oErr2)] [.call (.ident "doX" p2 (some oDoX)) []],
    .exprStmt (.call (.selector (.ident "logger" p3 lgObj) (.ident "Warn" p4 (some oWa)))
      [.ident "err2" p5 (some oErr2)]),
    .exprStmt (.call (.selector (.ident "logger" p6 lgObj) (.ident "Error" p7 (some oWb)))
      [.ident "err2" p8 (some oErr2)]) ]

/-- Never-assigned error symbol (a parameter) of the claim C10 witness. -/
def oErrP : Obj := ⟨10, "errp", "error", none, false⟩

/-- Assigned and tracked error symbol of the claim C10 witness. -/
def oErrQ : Obj := ⟨11, "err2", "error", none, false⟩

/-- Producer function symbol of the claim C10 witness. -/
def oDoY : Obj := ⟨12, "pkg.doX", "func", none, false⟩

/-- Logger Warn method symbol of the claim C10 witness. -/
def oWarnM : Obj := ⟨13, "log.Warn", "func", some "github.com/Khan/webapp/pkg/lib/log.Logger", false⟩

/-- Logger Error method symbol of the claim C10 witness. -/
def oErrorM : Obj := ⟨14, "log.Error", "func", some "github.com/Khan/webapp/pkg/lib/log.Logger", false⟩

/-- CFG of the claim C10 witness: the exempt body at concrete symbols and
positions (it assigns and tracks oErrQ while oErrP is never assigned). -/
def gC10b : CFG :=
  ⟨[⟨true, c10ExemptBody oErrP oErrQ oDoY oWarnM oErrorM none 30 31 40 41 42 45 46 47 50 51 52 60, [], 0⟩]⟩

/-- CFG of the claim C10 witness contrast: the tracked body at concrete
symbols and positions. -/
def gC10c : CFG :=
  ⟨[⟨true, c10TrackedBody oErrQ oDoY oWarnM oErrorM none 30 31 40 41 42 45 46 47, [], 0⟩]⟩

/-! Frame property of the store-forking engine, for claim C8. -/

/-- Frame relation of a traversal step that owns reference r: the store
never shrinks, and every other pre-existing map is untouched. -/
def FrameAt (r : Nat) (stA stB : EngineSt) : Prop :=
  stA.store.length ≤ stB.store.length ∧
  ∀ q, q < stA.store.length → q ≠ r → stB.store[q]? = stA.store[q]?

/-- Error symbol of the claim C8 witness program. -/
def oErrC8 : Obj := ⟨9, "e", "error", none, false⟩

/-- Branching CFG of the claim C8 witness: block 0 has two successors; the
first (non-last) successor assigns an error symbol, mutating the copy it
was handed. -/
def gBranch : CFG :=
  ⟨[⟨true, [], [1, 2], 0⟩,
    ⟨true, [.assign [.ident "e" 80 (some oErrC8)] [.ident "x" 81 none]], [], 1⟩,
    ⟨true, [], [], 2⟩]⟩

/-- Initial state of the claim C8 witness: two pre-existing maps, the run
owning reference 0. -/
def stInit2 : EngineSt := ⟨[[], []], [], []⟩

/-- Final state of the claim C8 witness runs: the sibling's mutation landed
only in its fresh copy (index 2). -/
def stEx : EngineSt :=
  ⟨[[], [], [(oErrC8, none)]], [], [((0, 1), 1), ((0, 2), 1)]⟩

/-! Bounded edge counters and termination, for claim C7. -/

/-- Total number of recorded edge traversals. -/
def weight (tp : List ((Nat × Nat) × Nat)) : Nat :=
  (tp.map (fun kv => kv.2)).sum

/-- Invariant of the traversed-edges map over a CFG with n blocks: keys are
distinct edges between existing blocks and every counter is at most 2. -/
def TPInv (n : Nat) (tp : List ((Nat × Nat) × Nat)) : Prop :=
  (tp.map Prod.fst).Nodup ∧ ∀ kv ∈ tp, kv.1.1 < n ∧ kv.1.2 < n ∧ kv.2 ≤ 2

/-- Well-formedness of the CFG supplied by the external provider: it is
nonempty, every block records its own position as its index, and successor
edges point at existing blocks. -/
def wfCFG (g : CFG) : Bool :=
  !g.blocks.isEmpty &&
  (List.range g.blocks.length).all (fun i => (g.blocks.getD i deadBlock).index = i) &&
  g.blocks.all (fun b => b.succs.all (fun s => s < g.blocks.length))

/-- Cyclic two-block CFG (a loop) used as the claim C7 witness. -/
def gCyc : CFG := ⟨[⟨true, [], [1], 0⟩, ⟨true, [], [0], 1⟩]⟩

/-- Generalized characterization of the statement loop of checkCFG for an
arbitrary incoming state. -/
theorem runBlockHTTP_characterization (nodes : List Node) (hasSucc : Bool) :
    ∀ mr, runBlockHTTP mr nodes hasSucc =
      firstViol mr nodes hasSucc ++ followReports nodes ++ endReport nodes hasSucc := by
  induction nodes with
  | nil =>
    intro mr
    cases mr with
    | none => simp [runBlockHTTP, firstViol, followReports, endReport]
    | some m =>
      cases hasSucc <;> simp [runBlockHTTP, firstViol, followReports, endReport]
  | cons n rest ih =>
    intro mr
    have hrest := ih (mustReturnAfter n)
    cases rest with
    | nil =>
      cases hmr : mustReturnAfter n with
      | none =>
        cases mr with
        | none => simp [runBlockHTTP, firstViol, followReports, endReport, hmr]
        | some m =>
          cases hret : isReturnStmt n <;>
            simp [runBlockHTTP, firstViol, followReports, endReport, hmr, hret]
      | some m' =>
        cases mr with
        | none =>
          cases hasSucc <;>
            simp [runBlockHTTP, firstViol, followReports, endReport, hmr]
        | some m =>
          cases hret : isReturnStmt n <;> cases hasSucc <;>
            simp [runBlockHTTP, firstViol, followReports, endReport, hmr, hret]
    | cons n₂ rest₂ =>
      have hexp : runBlockHTTP mr (n :: n₂ :: rest₂) hasSucc =
          firstViol mr (n :: n₂ :: rest₂) hasSucc ++
            runBlockHTTP (mustReturnAfter n) (n₂ :: rest₂) hasSucc := by
        cases mr with
        | none => simp [runBlockHTTP, firstViol]
        | some m =>
          cases hret : isReturnStmt n <;> simp [runBlockHTTP, firstViol, hret]
      rw [hexp, hrest]
      have hfollow : followReports (n :: n₂ :: rest₂) =
          firstViol (mustReturnAfter n) (n₂ :: rest₂) hasSucc ++
            followReports (n₂ :: rest₂) := by
        cases hmr : mustReturnAfter n with
        | none => simp [followReports, firstViol, hmr]
        | some m' =>
          cases hret : isReturnStmt n₂ <;>
            simp [followReports, firstViol, hmr, hret]
      have hend : endReport (n :: n₂ :: rest₂) hasSucc =
          endReport (n₂ :: rest₂) hasSucc := by
        simp [endReport]
      rw [hfollow, hend]
      simp

/-- Claim C1, counterexample: in the body http.Error(); log(x); log(y);
return, the claim demands a report for each of the two following non-return
statements, but the analysis emits exactly one diagnostic (the mustReturn
state is recomputed after every statement, so it is empty when log(y) is
scanned). -/
theorem c1_counterexample :
    checkCFG gC1 = [reportHTTP (11, some oHTTPErr)] ∧
      (checkCFG gC1).length ≠ 2 := by
  constructor <;> decide

/-- Claim C1, amended: a statement is reported exactly when the immediately
preceding statement of the block contains a must-return call and the
statement itself is not a return (so in a run of consecutive non-return
statements after such a call only the first produces a report, because the
state is recomputed - and cleared - at every statement); in addition the
block end is reported when the last statement contains a must-return call
and the block has successors. -/
theorem c1_amended (nodes : List Node) (hasSucc : Bool) :
    runBlockHTTP none nodes hasSucc = followReports nodes ++ endReport nodes hasSucc := by
  have h := runBlockHTTP_characterization nodes hasSucc none
  simpa [firstViol] using h

/-! Claim C2. -/

/-- Claim C2, counterexample: for the body http.Error(); log(x); return,
exactly one diagnostic is emitted, but it is positioned at the identifier
of the http.Error call (position 11), not at the following statement
log(x) (positions 20-21) as the claim requires. -/
theorem c2_counterexample :
    checkCFG gC2 = [⟨11, "HTTP handlers (or helpers) must return after calling net/http.Error"⟩] ∧
      (checkCFG gC2).all (fun d => d.pos ≠ 20 && d.pos ≠ 21) := by
  constructor <;> decide

/-- Claim C2, amended: for every one-block function body of the shape
call; stmt; return in which the call contains a must-return identifier at
position p, and the intermediate statement is not a return and contains no
must-return call, exactly one diagnostic is emitted and it is positioned at
p, the must-return call identifier (not at the following statement). -/
theorem c2_amended (c s : Node) (p : Nat) (ob : Option Obj)
    (hc : mustReturnAfter c = some (p, ob))
    (hs : mustReturnAfter s = none)
    (hret : isReturnStmt s = false) :
    checkCFG ⟨[⟨true, [c, s, .ret []], [], 0⟩]⟩ = [reportHTTP (p, ob)] := by
  simp [checkCFG, runBlockHTTP, hc, hs, hret, mustReturnAfter, mustReturnAfterList]

/-- Claim C2, witness for the amended theorem at the concrete body
http.Error(); log(x); return. -/
theorem c2_witness :
    mustReturnAfter exCall = some (11, some oHTTPErr) ∧
      mustReturnAfter exLog = none ∧ isReturnStmt exLog = false ∧
      checkCFG gC2 = [reportHTTP (11, some oHTTPErr)] :=
  ⟨by decide, by decide, by decide,
    c2_amended exCall exLog 11 (some oHTTPErr) (by decide) (by decide) (by decide)⟩

/-- Claim C3: the claim (and the intent documented in the source, which
carefully counts named groups as several positions) requires the indices of
the error-typed result positions, but the loop never advances the running
position after an error field, so func() (error, error) yields [0, 0]
instead of [0, 1] and func() (e error, s string, f error) yields [0, 1]
instead of [0, 2].  This theorem evaluates the source embedding and the
spec reading at both failing signatures. -/
theorem c3_code_bug_eval :
    errorResultIndices sigTwoErrors = [0, 0] ∧
      specErrorResultIndices sigTwoErrors = [0, 1] ∧
      errorResultIndices sigNamedErrors = [0, 1] ∧
      specErrorResultIndices sigNamedErrors = [0, 2] := by
  refine ⟨?_, ?_, ?_, ?_⟩ <;> decide

/-- Claim C4: for a function body err := doX(); logger.Warn(err); return
err whose single result position is error-typed, the analysis emits exactly
one diagnostic, its message is the logged-and-returned message, and it is
positioned at the reference to the error inside the return statement (p6),
recording the earlier logging site (p5). -/
theorem c4_log_and_return (oErr oDoX oWarn : Obj) (lgObj : Option Obj)
    (p1 p2 p3 p4 p5 p6 : Nat)
    (h1 : oErr.typeStr = "error")
    (h2 : oWarn.recvTypeStr = some "github.com/Khan/webapp/pkg/lib/log.Logger")
    (h3 : receiverIsLogger (some oDoX) = false)
    (h4 : lgObj ≠ some oErr)
    (h5 : oWarn ≠ oErr)
    (h6 : oDoX ≠ oErr) :
    lintLogOrReturnErrors 1 (errorResultIndices (some [⟨[], some "error"⟩]))
        ⟨[⟨true, c4Body oErr oDoX oWarn lgObj p1 p2 p3 p4 p5 p6, [], 0⟩]⟩ =
      some ⟨[[(oErr, some p5)]], [⟨p6, logAndReturnMsg p5⟩], []⟩ := by
  have h5' : ¬(oErr = oWarn) := fun h => h5 h.symm
  have h6' : ¬(oErr = oDoX) := fun h => h6 h.symm
  have hw : receiverIsLogger (some oWarn) = true := by
    simp [receiverIsLogger, h2]
  cases lgObj with
  | none =>
    simp [lintLogOrReturnErrors, checkBlockForLogsAndReturns, c4Body, runNodes,
      inspectNodeList, inspectNode, markAssignLhs, h1, ObjectFor, hw, h3,
      scanLogCall, scanLogCallList, alookup, aupsert, h5', h6',
      scanReturnIndices, scanReturnValue, errorResultIndices,
      errorResultIndicesAux, succRun, deadBlock]
  | some lo =>
    have h4' : ¬(oErr = lo) := fun h => h4 (by rw [h])
    simp [lintLogOrReturnErrors, checkBlockForLogsAndReturns, c4Body, runNodes,
      inspectNodeList, inspectNode, markAssignLhs, h1, ObjectFor, hw, h3,
      scanLogCall, scanLogCallList, alookup, aupsert, h5', h6', h4',
      scanReturnIndices, scanReturnValue, errorResultIndices,
      errorResultIndicesAux, succRun, deadBlock]

/-- Claim C4, witness at concrete symbols and positions. -/
theorem c4_witness :
    (⟨2, "err", "error", none, false⟩ : Obj).typeStr = "error" ∧
      lintLogOrReturnErrors 1 (errorResultIndices (some [⟨[], some "error"⟩]))
          ⟨[⟨true, c4Body ⟨2, "err", "error", none, false⟩ ⟨3, "pkg.doX", "func", none, false⟩
              ⟨4, "log.Warn", "func", some "github.com/Khan/webapp/pkg/lib/log.Logger", false⟩
              none 30 31 40 41 42 50, [], 0⟩]⟩ =
        some ⟨[[(⟨2, "err", "error", none, false⟩, some 42)]],
          [⟨50, logAndReturnMsg 42⟩], []⟩ :=
  ⟨rfl,
    c4_log_and_return ⟨2, "err", "error", none, false⟩ ⟨3, "pkg.doX", "func", none, false⟩
      ⟨4, "log.Warn", "func", some "github.com/Khan/webapp/pkg/lib/log.Logger", false⟩
      none 30 31 40 41 42 50 rfl rfl (by decide) (by decide) (by decide) (by decide)⟩

/-- Deleting a key removes it from lookups. -/
theorem alookup_aerase_self [DecidableEq κ] (o : κ) (c : List (κ × β)) :
    alookup o (aerase o c) = none := by
  induction c with
  | nil => simp [aerase, alookup]
  | cons hd tl ih =>
    by_cases h1 : hd.1 = o
    · simpa [aerase, List.filter_cons, h1] using ih
    · simpa [aerase, List.filter_cons, h1, alookup] using ih

/-- Deleting one key leaves lookups of other keys unchanged. -/
theorem alookup_aerase_ne [DecidableEq κ] {k o : κ} (h : k ≠ o) (c : List (κ × β)) :
    alookup o (aerase k c) = alookup o c := by
  induction c with
  | nil => simp [aerase, alookup]
  | cons hd tl ih =>
    by_cases h1 : hd.1 = k
    · have h2 : ¬(hd.1 = o) := by rw [h1]; exact h
      simpa [aerase, List.filter_cons, h1, alookup, h2, h, Ne.symm h] using ih
    · by_cases h2 : hd.1 = o
      · simp [aerase, List.filter_cons, h1, alookup, h2, h, Ne.symm h]
      · simpa [aerase, List.filter_cons, h1, alookup, h2, h, Ne.symm h] using ih

/-- Composition of two lookup specifications. -/
theorem LookupSpec.lookupComp {o : Obj} {f g : Closables → Closables} {b₁ b₂ : Bool}
    (hf : LookupSpec o f b₁) (hg : LookupSpec o g b₂) :
    LookupSpec o (fun c => g (f c)) (b₁ || b₂) := by
  intro c
  cases b₁ <;> cases b₂ <;> simp [hf c, hg (f c), hg]

/-- Deleting one possibly unresolved symbol deletes o exactly when it is
o. -/
theorem deleteObj_spec (o : Obj) (ob : Option Obj) :
    LookupSpec o (deleteObj ob) (ob == some o) := by
  intro c
  cases ob with
  | none => simp [deleteObj]
  | some o₁ =>
    by_cases h : o₁ = o
    · simp [deleteObj, h, alookup_aerase_self]
    · simp [deleteObj, alookup_aerase_ne h, h]

/-- Folding a per-expression delete over a list deletes o exactly when some
expression resolves to o. -/
theorem foldl_deleteObj_spec (o : Obj) (f : Node → Option Obj) (es : List Node) :
    LookupSpec o (fun c => es.foldl (fun c e => deleteObj (f e) c) c)
      (es.any (fun e => f e == some o)) := by
  induction es with
  | nil => intro c; simp
  | cons e rest ih =>
    have h := (deleteObj_spec o (f e)).lookupComp ih
    intro c
    simpa only [List.foldl_cons, List.any_cons] using h c

/-- Closer-call argument deletion deletes o exactly when some argument
resolves directly to o. -/
theorem deleteArgs_spec (o : Obj) (args : List Node) :
    LookupSpec o (deleteArgs args) (args.any (fun a => ObjectFor a == some o)) :=
  foldl_deleteObj_spec o ObjectFor args

/-- Source/element deletion deletes o exactly when some expression unwraps
to o. -/
theorem deleteSources_spec (o : Obj) (es : List Node) :
    LookupSpec o (deleteSources es) (es.any (fun e => sourceObjOf e == some o)) :=
  foldl_deleteObj_spec o sourceObjOf es

/-- Returned-result deletion computes the same set as source deletion (the
extra nil guard in the source is redundant, deleting a nil key being a
no-op). -/
theorem deleteRetResults_eq_deleteSources (es : List Node) (c : Closables) :
    deleteRetResults es c = deleteSources es c := by
  induction es generalizing c with
  | nil => rfl
  | cons e rest ih =>
    have h1 : deleteRetResults (e :: rest) c =
        deleteRetResults rest
          (match identFromExpression e with
           | some i => deleteObj (ObjectFor i) c
           | none => c) := rfl
    have h2 : deleteSources (e :: rest) c =
        deleteSources rest (deleteObj (sourceObjOf e) c) := rfl
    rw [h1, h2, ih]
    congr 1
    cases hid : identFromExpression e <;> simp [sourceObjOf, hid, deleteObj]

/-- Returned-result deletion deletes o exactly when some result unwraps to
o. -/
theorem deleteRetResults_spec (o : Obj) (es : List Node) :
    LookupSpec o (deleteRetResults es) (es.any (fun e => sourceObjOf e == some o)) := by
  intro c
  rw [deleteRetResults_eq_deleteSources]
  exact deleteSources_spec o es c

/-- Specification of the release step performed at a call node: under a
closer call the directly-resolved arguments are deleted; otherwise a callee
selector named Close deletes its receiver. -/
theorem closerStep_spec (closers : List Obj) (o : Obj) (fn : Node) (args : List Node) :
    LookupSpec o
      (fun c =>
        if isCallToCloser closers (.call fn args) then deleteArgs args c
        else
          match fn with
          | .selector x (.ident selName _ _) =>
            if selName == "Close" then deleteObj (ObjectFor x) c else c
          | _ => c)
      (if isCallToCloser closers (.call fn args) then
        args.any (fun a => ObjectFor a == some o)
      else
        match fn with
        | .selector x (.ident selName _ _) => selName == "Close" && (ObjectFor x == some o)
        | _ => false) := by
  intro c
  by_cases hc : isCallToCloser closers (.call fn args) = true
  · simp only [hc, if_true]
    exact deleteArgs_spec o args c
  · simp only [Bool.not_eq_true] at hc
    simp only [hc, Bool.false_eq_true, if_false]
    match fn with
    | .ident _ _ _ => simp
    | .star _ => simp
    | .unary _ => simp
    | .paren _ => simp
    | .index _ _ => simp
    | .typeAssert _ => simp
    | .call _ _ => simp
    | .keyValue _ _ => simp
    | .compositeLit _ => simp
    | .basicLit _ => simp
    | .funcLit _ => simp
    | .assign _ _ => simp
    | .ret _ => simp
    | .exprStmt _ => simp
    | .selector x sel =>
      match sel with
      | .ident selName _ _ =>
        by_cases hn : selName == "Close"
        · simp only [hn, if_true, Bool.true_and]
          exact deleteObj_spec o (ObjectFor x) c
        · simp only [Bool.not_eq_true] at hn
          simp [hn]
      | .selector _ _ => simp
      | .star _ => simp
      | .unary _ => simp
      | .paren _ => simp
      | .index _ _ => simp
      | .typeAssert _ => simp
      | .call _ _ => simp
      | .keyValue _ _ => simp
      | .compositeLit _ => simp
      | .basicLit _ => simp
      | .funcLit _ => simp
      | .assign _ _ => simp
      | .ret _ => simp
      | .exprStmt _ => simp

mutual
/-- Lookup specification of the release/escape pass on one node: it deletes
the symbol o exactly when hitsSym holds, and otherwise leaves the entry of
o untouched. -/
theorem cancelPass_spec (closers : List Obj) (o : Obj) :
    ∀ n : Node, LookupSpec o (cancelPass closers n) (hitsSym closers o n)
  | .ident _ _ _ => by intro c; simp [cancelPass, hitsSym]
  | .basicLit _ => by intro c; simp [cancelPass, hitsSym]
  | .star x => by
    have h := cancelPass_spec closers o x
    intro c
    simpa [cancelPass, hitsSym] using h c
  | .unary x => by
    have h := cancelPass_spec closers o x
    intro c
    simpa [cancelPass, hitsSym] using h c
  | .paren x => by
    have h := cancelPass_spec closers o x
    intro c
    simpa [cancelPass, hitsSym] using h c
  | .typeAssert x => by
    have h := cancelPass_spec closers o x
    intro c
    simpa [cancelPass, hitsSym] using h c
  | .exprStmt x => by
    have h := cancelPass_spec closers o x
    intro c
    simpa [cancelPass, hitsSym] using h c
  | .selector x sel => by
    have h := (cancelPass_spec closers o x).lookupComp (cancelPass_spec closers o sel)
    intro c
    simpa [cancelPass, hitsSym] using h c
  | .index x idx => by
    have h := (cancelPass_spec closers o x).lookupComp (cancelPass_spec closers o idx)
    intro c
    simpa [cancelPass, hitsSym] using h c
  | .keyValue k v => by
    have h := (cancelPass_spec closers o k).lookupComp (cancelPass_spec closers o v)
    intro c
    simpa [cancelPass, hitsSym] using h c
  | .funcLit body => by
    have h := cancelPassList_spec closers o body
    intro c
    simpa [cancelPass, hitsSym] using h c
  | .compositeLit elts => by
    have h := (deleteSources_spec o elts).lookupComp (cancelPassList_spec closers o elts)
    intro c
    simpa [cancelPass, hitsSym] using h c
  | .ret results => by
    have h := (deleteRetResults_spec o results).lookupComp (cancelPassList_spec closers o results)
    intro c
    simpa [cancelPass, hitsSym] using h c
  | .assign lhs rhs => by
    have h := ((deleteSources_spec o rhs).lookupComp (cancelPassList_spec closers o lhs)).lookupComp
      (cancelPassList_spec closers o rhs)
    intro c
    simpa [cancelPass, hitsSym] using h c
  | .call fn args => by
    have h := ((closerStep_spec closers o fn args).lookupComp (cancelPass_spec closers o fn)).lookupComp
      (cancelPassList_spec closers o args)
    intro c
    simpa [cancelPass, hitsSym] using h c

/-- Lookup specification of the release/escape pass on a node list. -/
theorem cancelPassList_spec (closers : List Obj) (o : Obj) :
    ∀ ns : List Node, LookupSpec o (cancelPassList closers ns) (hitsSymList closers o ns)
  | [] => by intro c; simp [cancelPassList, hitsSymList]
  | n :: rest => by
    have h := (cancelPass_spec closers o n).lookupComp (cancelPassList_spec closers o rest)
    intro c
    simpa [cancelPassList, hitsSymList] using h c
end

/-- Keys reachable after an insert-or-replace. -/
theorem mem_keys_aupsert [DecidableEq κ] {x k : κ} {v : β} {c : List (κ × β)} :
    x ∈ (aupsert k v c).map Prod.fst → x = k ∨ x ∈ c.map Prod.fst := by
  induction c with
  | nil =>
    intro h
    simp [aupsert] at h
    exact Or.inl h
  | cons hd tl ih =>
    intro h
    by_cases h1 : hd.1 = k
    · rw [show aupsert k v (hd :: tl) = (k, v) :: tl from by simp [aupsert, h1]] at h
      rw [List.map_cons, List.mem_cons] at h
      rcases h with h | h
      · exact Or.inl h
      · exact Or.inr (by rw [List.map_cons, List.mem_cons]; exact Or.inr h)
    · rw [show aupsert k v (hd :: tl) = hd :: aupsert k v tl from by simp [aupsert, h1]] at h
      rw [List.map_cons, List.mem_cons] at h
      rcases h with h | h
      · exact Or.inr (by rw [List.map_cons, List.mem_cons]; exact Or.inl h)
      · rcases ih h with h2 | h2
        · exact Or.inl h2
        · exact Or.inr (by rw [List.map_cons, List.mem_cons]; exact Or.inr h2)

/-- Insert-or-replace preserves distinctness of keys. -/
theorem keys_aupsert_nodup [DecidableEq κ] {k : κ} {v : β} {c : List (κ × β)}
    (h : (c.map Prod.fst).Nodup) : ((aupsert k v c).map Prod.fst).Nodup := by
  induction c with
  | nil => simp [aupsert]
  | cons hd tl ih =>
    simp only [List.map_cons, List.nodup_cons] at h
    by_cases h1 : hd.1 = k
    · simp only [aupsert, h1, if_true, List.map_cons, List.nodup_cons]
      exact ⟨by rw [← h1]; exact h.1, h.2⟩
    · simp only [aupsert, h1, if_false, List.map_cons, List.nodup_cons]
      refine ⟨fun hmem => ?_, ih h.2⟩
      rcases mem_keys_aupsert hmem with he | he
      · exact h1 he
      · exact h.1 he

/-- The left-hand-side loop of the acquisition pass preserves distinctness
of tracked keys. -/
theorem collectLhs_nodup : ∀ (vs rhs : List Node) (i : Nat) (c : Closables),
    (c.map Prod.fst).Nodup → ((collectLhs vs rhs i c).map Prod.fst).Nodup
  | [], _, _, _, h => h
  | v :: rest, rhs, i, c, h => by
    match v with
    | .ident nm pos ob =>
      match ob with
      | some o =>
        by_cases hcl : o.closable && !(assignedFromNoOp rhs i)
        · simp only [collectLhs, hcl, if_true]
          exact collectLhs_nodup rest rhs (i + 1) _ (keys_aupsert_nodup h)
        · simp only [collectLhs, hcl, if_false]
          exact collectLhs_nodup rest rhs (i + 1) c h
      | none => exact collectLhs_nodup rest rhs (i + 1) c h
    | .selector _ _ => exact collectLhs_nodup rest rhs (i + 1) c h
    | .star _ => exact collectLhs_nodup rest rhs (i + 1) c h
    | .unary _ => exact collectLhs_nodup rest rhs (i + 1) c h
    | .paren _ => exact collectLhs_nodup rest rhs (i + 1) c h
    | .index _ _ => exact collectLhs_nodup rest rhs (i + 1) c h
    | .typeAssert _ => exact collectLhs_nodup rest rhs (i + 1) c h
    | .call _ _ => exact collectLhs_nodup rest rhs (i + 1) c h
    | .keyValue _ _ => exact collectLhs_nodup rest rhs (i + 1) c h
    | .compositeLit _ => exact collectLhs_nodup rest rhs (i + 1) c h
    | .basicLit _ => exact collectLhs_nodup rest rhs (i + 1) c h
    | .funcLit _ => exact collectLhs_nodup rest rhs (i + 1) c h
    | .assign _ _ => exact collectLhs_nodup rest rhs (i + 1) c h
    | .ret _ => exact collectLhs_nodup rest rhs (i + 1) c h
    | .exprStmt _ => exact collectLhs_nodup rest rhs (i + 1) c h

mutual
/-- The acquisition pass preserves distinctness of tracked keys. -/
theorem collectClosables_nodup : ∀ (n : Node) (c : Closables),
    (c.map Prod.fst).Nodup → ((collectClosables n c).map Prod.fst).Nodup
  | .ident _ _ _, _, h => h
  | .basicLit _, _, h => h
  | .star x, c, h => collectClosables_nodup x c h
  | .unary x, c, h => collectClosables_nodup x c h
  | .paren x, c, h => collectClosables_nodup x c h
  | .typeAssert x, c, h => collectClosables_nodup x c h
  | .exprStmt x, c, h => collectClosables_nodup x c h
  | .selector x sel, c, h => collectClosables_nodup sel _ (collectClosables_nodup x c h)
  | .index x idx, c, h => collectClosables_nodup idx _ (collectClosables_nodup x c h)
  | .keyValue k v, c, h => collectClosables_nodup v _ (collectClosables_nodup k c h)
  | .compositeLit elts, c, h => collectClosablesList_nodup elts c h
  | .funcLit body, c, h => collectClosablesList_nodup body c h
  | .ret results, c, h => collectClosablesList_nodup results c h
  | .call fn args, c, h => collectClosablesList_nodup args _ (collectClosables_nodup fn c h)
  | .assign lhs rhs, c, h =>
    collectClosablesList_nodup rhs _
      (collectClosablesList_nodup lhs _ (collectLhs_nodup lhs rhs 0 c h))

/-- List version of collectClosables_nodup. -/
theorem collectClosablesList_nodup : ∀ (ns : List Node) (c : Closables),
    (c.map Prod.fst).Nodup → ((collectClosablesList ns c).map Prod.fst).Nodup
  | [], _, h => h
  | n :: rest, c, h => collectClosablesList_nodup rest _ (collectClosables_nodup n c h)
end

/-- Composition of key-sublist transformers. -/
theorem KeysSub.keysComp {f g : Closables → Closables} (hf : KeysSub f) (hg : KeysSub g) :
    KeysSub (fun c => g (f c)) :=
  fun c => (hg (f c)).trans (hf c)

/-- Deleting a key keeps a sublist of the keys. -/
theorem deleteObj_keysSub (ob : Option Obj) : KeysSub (deleteObj ob) := by
  intro c
  cases ob with
  | none => exact List.Sublist.refl _
  | some o => exact (List.filter_sublist c).map Prod.fst

/-- Folded per-expression deletes keep a sublist of the keys. -/
theorem foldl_deleteObj_keysSub (f : Node → Option Obj) : ∀ es : List Node,
    KeysSub (fun c => es.foldl (fun c e => deleteObj (f e) c) c)
  | [] => fun _ => List.Sublist.refl _
  | e :: rest => by
    have h := (deleteObj_keysSub (f e)).keysComp (foldl_deleteObj_keysSub f rest)
    intro c
    simpa only [List.foldl_cons] using h c

/-- The release step at a call node keeps a sublist of the keys. -/
theorem closerStep_keysSub (closers : List Obj) (fn : Node) (args : List Node) :
    KeysSub
      (fun c =>
        if isCallToCloser closers (.call fn args) then deleteArgs args c
        else
          match fn with
          | .selector x (.ident selName _ _) =>
            if selName == "Close" then deleteObj (ObjectFor x) c else c
          | _ => c) := by
  intro c
  by_cases hc : isCallToCloser closers (.call fn args) = true
  · simp only [hc, if_true]
    exact foldl_deleteObj_keysSub ObjectFor args c
  · simp only [Bool.not_eq_true] at hc
    simp only [hc, Bool.false_eq_true, if_false]
    match fn with
    | .ident _ _ _ => exact List.Sublist.refl _
    | .star _ => exact List.Sublist.refl _
    | .unary _ => exact List.Sublist.refl _
    | .paren _ => exact List.Sublist.refl _
    | .index _ _ => exact List.Sublist.refl _
    | .typeAssert _ => exact List.Sublist.refl _
    | .call _ _ => exact List.Sublist.refl _
    | .keyValue _ _ => exact List.Sublist.refl _
    | .compositeLit _ => exact List.Sublist.refl _
    | .basicLit _ => exact List.Sublist.refl _
    | .funcLit _ => exact List.Sublist.refl _
    | .assign _ _ => exact List.Sublist.refl _
    | .ret _ => exact List.Sublist.refl _
    | .exprStmt _ => exact List.Sublist.refl _
    | .selector x sel =>
      match sel with
      | .ident selName _ _ =>
        by_cases hn : selName == "Close"
        · simp only [hn, if_true]
          exact deleteObj_keysSub (ObjectFor x) c
        · simp only [Bool.not_eq_true] at hn
          simp only [hn, Bool.false_eq_true, if_false]
          exact List.Sublist.refl _
      | .selector _ _ => exact List.Sublist.refl _
      | .star _ => exact List.Sublist.refl _
      | .unary _ => exact List.Sublist.refl _
      | .paren _ => exact List.Sublist.refl _
      | .index _ _ => exact List.Sublist.refl _
      | .typeAssert _ => exact List.Sublist.refl _
      | .call _ _ => exact List.Sublist.refl _
      | .keyValue _ _ => exact List.Sublist.refl _
      | .compositeLit _ => exact List.Sublist.refl _
      | .basicLit _ => exact List.Sublist.refl _
      | .funcLit _ => exact List.Sublist.refl _
      | .assign _ _ => exact List.Sublist.refl _
      | .ret _ => exact List.Sublist.refl _
      | .exprStmt _ => exact List.Sublist.refl _

/-- Source/element deletion keeps a sublist of the keys. -/
theorem deleteSources_keysSub (es : List Node) : KeysSub (deleteSources es) :=
  foldl_deleteObj_keysSub sourceObjOf es

/-- Returned-result deletion keeps a sublist of the keys. -/
theorem deleteRetResults_keysSub (es : List Node) : KeysSub (deleteRetResults es) := by
  intro c
  rw [deleteRetResults_eq_deleteSources]
  exact deleteSources_keysSub es c

mutual
/-- The release/escape pass keeps a sublist of the tracked keys. -/
theorem cancelPass_keysSub (closers : List Obj) :
    ∀ n : Node, KeysSub (cancelPass closers n)
  | .ident _ _ _ => fun _ => List.Sublist.refl _
  | .basicLit _ => fun _ => List.Sublist.refl _
  | .star x => fun c => cancelPass_keysSub closers x c
  | .unary x => fun c => cancelPass_keysSub closers x c
  | .paren x => fun c => cancelPass_keysSub closers x c
  | .typeAssert x => fun c => cancelPass_keysSub closers x c
  | .exprStmt x => fun c => cancelPass_keysSub closers x c
  | .selector x sel => fun c =>
    ((cancelPass_keysSub closers x).keysComp (cancelPass_keysSub closers sel)) c
  | .index x idx => fun c =>
    ((cancelPass_keysSub closers x).keysComp (cancelPass_keysSub closers idx)) c
  | .keyValue k v => fun c =>
    ((cancelPass_keysSub closers k).keysComp (cancelPass_keysSub closers v)) c
  | .funcLit body => fun c => cancelPassList_keysSub closers body c
  | .compositeLit elts => fun c =>
    ((deleteSources_keysSub elts).keysComp (cancelPassList_keysSub closers elts)) c
  | .ret results => fun c =>
    ((deleteRetResults_keysSub results).keysComp (cancelPassList_keysSub closers results)) c
  | .assign lhs rhs => fun c =>
    (((deleteSources_keysSub rhs).keysComp (cancelPassList_keysSub closers lhs)).keysComp
      (cancelPassList_keysSub closers rhs)) c
  | .call fn args => fun c =>
    (((closerStep_keysSub closers fn args).keysComp (cancelPass_keysSub closers fn)).keysComp
      (cancelPassList_keysSub closers args)) c

/-- List version of cancelPass_keysSub. -/
theorem cancelPassList_keysSub (closers : List Obj) :
    ∀ ns : List Node, KeysSub (cancelPassList closers ns)
  | [] => fun _ => List.Sublist.refl _
  | n :: rest => fun c =>
    ((cancelPass_keysSub closers n).keysComp (cancelPassList_keysSub closers rest)) c
end

mutual
/-- A symbol appearing in a return statement (after unwrapping) is deleted
by the release/escape pass: returnsSym implies hitsSym. -/
theorem returnsSym_imp_hits (closers : List Obj) (o : Obj) :
    ∀ n : Node, returnsSym o n = true → hitsSym closers o n = true
  | .ident _ _ _ => by simp [returnsSym]
  | .basicLit _ => by simp [returnsSym]
  | .star x => by
    intro h
    simp only [returnsSym] at h
    simp only [hitsSym]
    exact returnsSym_imp_hits closers o x h
  | .unary x => by
    intro h
    simp only [returnsSym] at h
    simp only [hitsSym]
    exact returnsSym_imp_hits closers o x h
  | .paren x => by
    intro h
    simp only [returnsSym] at h
    simp only [hitsSym]
    exact returnsSym_imp_hits closers o x h
  | .typeAssert x => by
    intro h
    simp only [returnsSym] at h
    simp only [hitsSym]
    exact returnsSym_imp_hits closers o x h
  | .exprStmt x => by
    intro h
    simp only [returnsSym] at h
    simp only [hitsSym]
    exact returnsSym_imp_hits closers o x h
  | .selector x sel => by
    intro h
    simp only [returnsSym, Bool.or_eq_true] at h
    simp only [hitsSym, Bool.or_eq_true]
    rcases h with h | h
    · exact Or.inl (returnsSym_imp_hits closers o x h)
    · exact Or.inr (returnsSym_imp_hits closers o sel h)
  | .index x idx => by
    intro h
    simp only [returnsSym, Bool.or_eq_true] at h
    simp only [hitsSym, Bool.or_eq_true]
    rcases h with h | h
    · exact Or.inl (returnsSym_imp_hits closers o x h)
    · exact Or.inr (returnsSym_imp_hits closers o idx h)
  | .keyValue k v => by
    intro h
    simp only [returnsSym, Bool.or_eq_true] at h
    simp only [hitsSym, Bool.or_eq_true]
    rcases h with h | h
    · exact Or.inl (returnsSym_imp_hits closers o k h)
    · exact Or.inr (returnsSym_imp_hits closers o v h)
  | .compositeLit elts => by
    intro h
    simp only [returnsSym] at h
    simp only [hitsSym, Bool.or_eq_true]
    exact Or.inr (returnsSymList_imp_hits closers o elts h)
  | .funcLit body => by
    intro h
    simp only [returnsSym] at h
    simp only [hitsSym]
    exact returnsSymList_imp_hits closers o body h
  | .ret results => by
    intro h
    simp only [returnsSym, Bool.or_eq_true] at h
    simp only [hitsSym, Bool.or_eq_true]
    rcases h with h | h
    · exact Or.inl h
    · exact Or.inr (returnsSymList_imp_hits closers o results h)
  | .assign lhs rhs => by
    intro h
    simp only [returnsSym, Bool.or_eq_true] at h
    simp only [hitsSym, Bool.or_eq_true]
    rcases h with h | h
    · exact Or.inl (Or.inr (returnsSymList_imp_hits closers o lhs h))
    · exact Or.inr (returnsSymList_imp_hits closers o rhs h)
  | .call fn args => by
    intro h
    simp only [returnsSym, Bool.or_eq_true] at h
    simp only [hitsSym, Bool.or_eq_true]
    rcases h with h | h
    · exact Or.inl (Or.inr (returnsSym_imp_hits closers o fn h))
    · exact Or.inr (returnsSymList_imp_hits closers o args h)

/-- List version of returnsSym_imp_hits. -/
theorem returnsSymList_imp_hits (closers : List Obj) (o : Obj) :
    ∀ ns : List Node, returnsSymList o ns = true → hitsSymList closers o ns = true
  | [] => by simp [returnsSymList]
  | n :: rest => by
    intro h
    simp only [returnsSymList, Bool.or_eq_true] at h
    simp only [hitsSymList, Bool.or_eq_true]
    rcases h with h | h
    · exact Or.inl (returnsSym_imp_hits closers o n h)
    · exact Or.inr (returnsSymList_imp_hits closers o rest h)
end

/-- Counting an element in the image of a filterMap as counting its
preimages. -/
theorem count_filterMap_eq_countP [DecidableEq β] (f : α → Option β) (b : β) :
    ∀ l : List α, (l.filterMap f).count b = l.countP (fun a => f a == some b)
  | [] => by simp
  | a :: rest => by
    cases hf : f a with
    | none =>
      simp [List.filterMap_cons, hf, List.countP_cons,
        count_filterMap_eq_countP f b rest]
    | some b₁ =>
      by_cases hb : b₁ = b
      · simp [List.filterMap_cons, hf, hb, List.count_cons, List.countP_cons,
          count_filterMap_eq_countP f b rest]
      · simp [List.filterMap_cons, hf, hb, List.count_cons, List.countP_cons,
          count_filterMap_eq_countP f b rest]

/-- A successful lookup exhibits a member pair. -/
theorem alookup_mem_pair [DecidableEq κ] {o : κ} {p : β} :
    ∀ {c : List (κ × β)}, alookup o c = some p → (o, p) ∈ c := by
  intro c
  induction c with
  | nil => intro h; simp [alookup] at h
  | cons hd tl ih =>
    intro h
    by_cases h1 : hd.1 = o
    · simp only [alookup, h1, if_true, Option.some.injEq] at h
      have he : (o, p) = hd := by rw [← h1, ← h]
      rw [← he]
      exact List.mem_cons_self _ _
    · simp only [alookup, h1, if_false] at h
      exact List.mem_cons_of_mem hd (ih h)

/-- A member key has a successful lookup. -/
theorem mem_keys_alookup [DecidableEq κ] {o : κ} :
    ∀ {c : List (κ × β)}, o ∈ c.map Prod.fst → ∃ p, alookup o c = some p := by
  intro c
  induction c with
  | nil => intro h; simp at h
  | cons hd tl ih =>
    intro h
    by_cases h1 : hd.1 = o
    · exact ⟨hd.2, by simp [alookup, h1]⟩
    · rw [List.map_cons, List.mem_cons] at h
      rcases h with h | h
      · exact absurd h.symm h1
      · obtain ⟨p, hp⟩ := ih h
        exact ⟨p, by simp [alookup, h1, hp]⟩

/-- A symbol absent from the tracked set contributes nothing to the report
loop: filtering it out of the iteration order changes nothing. -/
theorem reportClosables_skip {o : Obj} {c : Closables}
    (h : alookup o c = none) :
    ∀ order : List Obj,
      reportClosables order c = reportClosables (order.filter (fun x => !(x == o))) c
  | [] => rfl
  | x :: rest => by
    by_cases h1 : x = o
    · simp only [reportClosables, List.filter_cons, h1, beq_self_eq_true,
        Bool.not_true, Bool.false_eq_true, if_false, List.filterMap_cons, h,
        Option.map_none]
      exact reportClosables_skip h rest
    · have hb : ((x == o) : Bool) = false := by simp [h1]
      simp only [reportClosables, List.filter_cons, hb, Bool.not_false, if_true,
        List.filterMap_cons]
      have := reportClosables_skip h rest
      simp only [reportClosables] at this
      rw [this]

/-! Claim C5. -/

/-- Claim C5: in the ownership tracker, (1) an acquired closable whose
symbol appears (after the unwrapping the source applies) in a return
statement's results is never reported - it is absent from the final tracked
set, so any map-iteration order produces the same diagnostics with or
without it; and (2) an acquired closable (tracked at its acquisition site p
by the first pass) that the release/escape pass never deletes (no closer
call, no Close call, no assignment source, composite element or return, as
captured by hitsSymList = false) survives to the final tracked set with its
acquisition site and is reported exactly once, positioned at p, for every
admissible iteration order. -/
theorem c5_ownership (closers : List Obj) (body : List Node) (o : Obj) (p : Nat) :
    (returnsSymList o body = true →
      alookup o (scanFuncDecl closers body) = none ∧
      ∀ order : List Obj,
        reportClosables order (scanFuncDecl closers body) =
          reportClosables (order.filter (fun x => !(x == o))) (scanFuncDecl closers body)) ∧
    (∀ order : List Obj,
      alookup o (collectClosablesList body []) = some p →
      hitsSymList closers o body = false →
      order.Perm ((scanFuncDecl closers body).map Prod.fst) →
      (∀ e ∈ scanFuncDecl closers body, needsCloseDiag e.1 e.2 = needsCloseDiag o p → e.1 = o) →
      alookup o (scanFuncDecl closers body) = some p ∧
        (reportClosables order (scanFuncDecl closers body)).count (needsCloseDiag o p) = 1) := by
  constructor
  · intro hret
    have hhits : hitsSymList closers o body = true :=
      returnsSymList_imp_hits closers o body hret
    have hnone : alookup o (scanFuncDecl closers body) = none := by
      by_cases hemp : (collectClosablesList body []).isEmpty
      · simp [scanFuncDecl, hemp, alookup]
      · simp only [scanFuncDecl, Bool.not_eq_true] at hemp ⊢
        simp only [hemp, Bool.false_eq_true, if_false]
        have h := cancelPassList_spec closers o body (collectClosablesList body [])
        rw [hhits] at h
        simpa using h
    exact ⟨hnone, reportClosables_skip hnone⟩
  · intro order hcol hhits hperm hinj
    have hempty : (collectClosablesList body []).isEmpty = false := by
      cases hc : collectClosablesList body [] with
      | nil => rw [hc] at hcol; simp [alookup] at hcol
      | cons hd tl => rfl
    have hscan : scanFuncDecl closers body =
        cancelPassList closers body (collectClosablesList body []) := by
      simp [scanFuncDecl, hempty]
    have hlook : alookup o (scanFuncDecl closers body) = some p := by
      rw [hscan]
      have h := cancelPassList_spec closers o body (collectClosablesList body [])
      rw [hhits] at h
      simpa [hcol] using h
    refine ⟨hlook, ?_⟩
    have hnodup : ((scanFuncDecl closers body).map Prod.fst).Nodup := by
      rw [hscan]
      exact (collectClosablesList_nodup body [] (by simp)).sublist
        (cancelPassList_keysSub closers body _)
    have hmem : o ∈ (scanFuncDecl closers body).map Prod.fst :=
      List.mem_map.mpr ⟨(o, p), alookup_mem_pair hlook, rfl⟩
    have hrep : reportClosables order (scanFuncDecl closers body) =
        order.filterMap
          (fun o₂ => (alookup o₂ (scanFuncDecl closers body)).map
            (fun q => needsCloseDiag o₂ q)) := rfl
    rw [hrep, count_filterMap_eq_countP, hperm.countP_eq]
    have hcongr : ∀ x ∈ (scanFuncDecl closers body).map Prod.fst,
        (((alookup x (scanFuncDecl closers body)).map (fun q => needsCloseDiag x q) ==
            some (needsCloseDiag o p)) = true ↔ (x == o) = true) := by
      intro x hx
      constructor
      · intro hpx
        obtain ⟨px, hpx2⟩ := mem_keys_alookup hx
        rw [hpx2] at hpx
        simp at hpx
        have hxo : x = o := hinj (x, px) (alookup_mem_pair hpx2) hpx
        simp [hxo]
      · intro hxo
        have hx2 : x = o := by simpa using hxo
        subst hx2
        rw [hlook]
        simp
    rw [List.countP_congr hcongr, ← List.count_eq_countP]
    exact List.count_eq_one_of_mem hnodup hmem

/-- Claim C5, witness: on the concrete body r1 := open(); r2 := open();
return r1 with no closer facts, the returned closable r1 is never reported
and the unreleased closable r2 is tracked at its acquisition site 65 and
reported exactly once there. -/
theorem c5_witness :
    returnsSymList oR1 c5Body = true ∧
      alookup oR1 (scanFuncDecl [] c5Body) = none ∧
      alookup oR2 (collectClosablesList c5Body []) = some 65 ∧
      hitsSymList [] oR2 c5Body = false ∧
      [oR2].Perm ((scanFuncDecl [] c5Body).map Prod.fst) ∧
      (alookup oR2 (scanFuncDecl [] c5Body) = some 65 ∧
        (reportClosables [oR2] (scanFuncDecl [] c5Body)).count (needsCloseDiag oR2 65) = 1) :=
  ⟨by decide, ((c5_ownership [] c5Body oR1 0).1 (by decide)).1, by decide, by decide, by decide,
    (c5_ownership [] c5Body oR2 65).2 [oR2] (by decide) (by decide) (by decide) (by decide)⟩

/-- Claim C9, counterexample: in r := open(); closeIt(&r) with closeIt
fact-marked as a closer, the claim says passing address-of r releases r
just as passing r would; but closer-call arguments are resolved directly
with no unwrapping, so r stays tracked and is reported at its acquisition
site. -/
theorem c9_counterexample :
    isCallToCloser [oCloseIt]
        (.call (.ident "closeIt" 70 (some oCloseIt)) [.unary (.ident "r" 71 (some oR1))]) = true ∧
      alookup oR1 (scanFuncDecl [oCloseIt] c9Body) = some 60 ∧
      alwaysCloseRun [oCloseIt] [oR1] c9Body = [needsCloseDiag oR1 60] :=
  ⟨by decide, by decide, by decide⟩

/-- Claim C9, amended: a call to a fact-marked closer releases a tracked
symbol exactly when some argument resolves to it directly (an identifier,
or a selector denoting one) - the unwrapping of address-of, dereference and
the other wrapper forms applies only to escape sources and the callee, not
to closer-call arguments; in particular an address-of-wrapped argument
releases nothing. -/
theorem c9_amended (closers : List Obj) (o : Obj) (fn : Node) (args : List Node)
    (c : Closables) :
    (isCallToCloser closers (.call fn args) = true →
      args.any (fun a => ObjectFor a == some o) = true →
      alookup o (cancelPass closers (.call fn args) c) = none) ∧
    (∀ nm q, isCallToCloser closers (.call fn [.unary (.ident nm q (some o))]) = true →
      hitsSym closers o fn = false →
      alookup o (cancelPass closers (.call fn [.unary (.ident nm q (some o))]) c) =
        alookup o c) := by
  constructor
  · intro hc hany
    have hhits : hitsSym closers o (.call fn args) = true := by
      simp [hitsSym, hc, hany]
    have h := cancelPass_spec closers o (.call fn args) c
    rw [hhits] at h
    simpa using h
  · intro nm q hc hfn
    have hhits : hitsSym closers o (.call fn [.unary (.ident nm q (some o))]) = false := by
      simp [hitsSym, hitsSymList, hc, hfn, ObjectFor]
    have h := cancelPass_spec closers o (.call fn [.unary (.ident nm q (some o))]) c
    rw [hhits] at h
    simpa using h

/-- Claim C9, witness for the amended theorem: a bare argument r releases
the tracked r; an address-of argument releases nothing. -/
theorem c9_witness :
    isCallToCloser [oCloseIt]
        (.call (.ident "closeIt" 70 (some oCloseIt)) [.ident "r" 71 (some oR1)]) = true ∧
      [Node.ident "r" 71 (some oR1)].any (fun a => ObjectFor a == some oR1) = true ∧
      alookup oR1
        (cancelPass [oCloseIt]
          (.call (.ident "closeIt" 70 (some oCloseIt)) [.ident "r" 71 (some oR1)])
          [(oR1, 60)]) = none ∧
      hitsSym [oCloseIt] oR1 (.ident "closeIt" 70 (some oCloseIt)) = false ∧
      alookup oR1
        (cancelPass [oCloseIt]
          (.call (.ident "closeIt" 70 (some oCloseIt)) [.unary (.ident "r" 71 (some oR1))])
          [(oR1, 60)]) = alookup oR1 [(oR1, 60)] :=
  ⟨by decide, by decide,
    (c9_amended [oCloseIt] oR1 (.ident "closeIt" 70 (some oCloseIt))
      [.ident "r" 71 (some oR1)] [(oR1, 60)]).1 (by decide) (by decide),
    by decide,
    (c9_amended [oCloseIt] oR1 (.ident "closeIt" 70 (some oCloseIt))
      [.ident "r" 71 (some oR1)] [(oR1, 60)]).2 "r" 71 (by decide) (by decide)⟩

/-- Claim C6, counterexample: the final report loop of the ownership
tracker ranges over a Go map, whose iteration order the language leaves
unspecified; on a function with two unreleased closables, two admissible
iteration orders of the same tracked set (both enumerate exactly the
tracked symbols) produce the same diagnostics in different orders, so
identical input does not guarantee identical emission order. -/
theorem c6_counterexample :
    [oR1, oR2].Perm ((scanFuncDecl [] c6Body).map Prod.fst) ∧
      [oR2, oR1].Perm ((scanFuncDecl [] c6Body).map Prod.fst) ∧
      alwaysCloseRun [] [oR1, oR2] c6Body ≠ alwaysCloseRun [] [oR2, oR1] c6Body :=
  ⟨by decide, by decide, by decide⟩

/-- Claim C6, amended: two runs of the ownership tracker over identical
input produce the same diagnostics up to permutation - the report loop over
any two admissible map-iteration orders (which are permutations of each
other, each enumerating the tracked set once) emits permuted diagnostic
lists, while the dataflow engine and the per-block scans, which iterate no
map when emitting, are pure functions of their input and therefore
order-stable between runs. -/
theorem c6_amended (c : Closables) (order₁ order₂ : List Obj)
    (h : order₁.Perm order₂) :
    (reportClosables order₁ c).Perm (reportClosables order₂ c) :=
  h.filterMap _

/-- Claim C6, witness for the amended theorem at the two concrete iteration
orders of the two-closable program. -/
theorem c6_witness :
    [oR1, oR2].Perm [oR2, oR1] ∧
      (reportClosables [oR1, oR2] (scanFuncDecl [] c6Body)).Perm
        (reportClosables [oR2, oR1] (scanFuncDecl [] c6Body)) :=
  ⟨by decide, c6_amended (scanFuncDecl [] c6Body) [oR1, oR2] [oR2, oR1] (by decide)⟩

/-- The successor loop owns reference r: provided the recursive analysis
satisfies the frame relation for the reference it is given, the loop
touches only r and freshly allocated copies. -/
theorem succRun_frame (recur : Nat → Nat → EngineSt → Option EngineSt) (g : CFG)
    (bIndex : Nat)
    (hrec : ∀ s r₁ stA stB, recur s r₁ stA = some stB → FrameAt r₁ stA stB) :
    ∀ (succs : List Nat) (r : Nat) (stA stB : EngineSt),
      succRun recur g bIndex r succs stA = some stB → FrameAt r stA stB := by
  intro succs
  induction succs with
  | nil =>
    intro r stA stB h
    simp only [succRun, Option.some.injEq] at h
    rw [← h]
    exact ⟨Nat.le_refl _, fun q _ _ => rfl⟩
  | cons s rest ih =>
    intro r stA stB h
    have hchild : ∀ (stC stD : EngineSt),
        succChild recur r s rest.isEmpty stC = some stD → stC.store = stA.store →
        stA.store.length ≤ stD.store.length ∧
        ∀ q, q < stA.store.length → q ≠ r → stD.store[q]? = stA.store[q]? := by
      intro stC stD hc hst
      by_cases hlast : rest.isEmpty = true
      · rw [succChild, if_pos hlast] at hc
        obtain ⟨h1, h2⟩ := hrec s r stC stD hc
        rw [hst] at h1 h2
        exact ⟨h1, h2⟩
      · rw [succChild, if_neg hlast] at hc
        obtain ⟨h1, h2⟩ := hrec s stC.store.length _ stD hc
        simp only [List.length_append, List.length_cons, List.length_nil,
          Nat.add_zero, hst] at h1 h2
        constructor
        · exact Nat.le_trans (Nat.le_succ _) h1
        · intro q hql hqr
          rw [h2 q (Nat.lt_succ_of_lt hql) (Nat.ne_of_lt hql)]
          exact List.getElem?_append_left hql
    simp only [succRun] at h
    split at h
    · split at h
      · exact ih r stA stB h
      · split at h
        · exact absurd h (by simp)
        · next st₁ hstep =>
          have h1 := hchild _ st₁ hstep rfl
          have h2 := ih r st₁ stB h
          refine ⟨Nat.le_trans h1.1 h2.1, fun q hql hqr => ?_⟩
          rw [h2.2 q (Nat.lt_of_lt_of_le hql h1.1) hqr]
          exact h1.2 q hql hqr
    · split at h
      · exact absurd h (by simp)
      · next st₁ hstep =>
        have h1 := hchild _ st₁ hstep rfl
        have h2 := ih r st₁ stB h
        refine ⟨Nat.le_trans h1.1 h2.1, fun q hql hqr => ?_⟩
        rw [h2.2 q (Nat.lt_of_lt_of_le hql h1.1) hqr]
        exact h1.2 q hql hqr

/-- The block traversal owns reference r: it touches only the map at r and
maps it allocates itself. -/
theorem checkBlock_frame (g : CFG) (errIdx : List Nat) :
    ∀ (fuel : Nat) (bIdx r : Nat) (stA stB : EngineSt),
      checkBlockForLogsAndReturns fuel g errIdx bIdx r stA = some stB →
      FrameAt r stA stB := by
  intro fuel
  induction fuel with
  | zero => intro bIdx r stA stB h; simp [checkBlockForLogsAndReturns] at h
  | succ fuel ih =>
    intro bIdx r stA stB h
    rw [checkBlockForLogsAndReturns] at h
    by_cases hlive : (g.blocks.getD bIdx deadBlock).live = true
    · rw [if_pos hlive] at h
      have hf := succRun_frame
        (fun s r₁ st₂ => checkBlockForLogsAndReturns fuel g errIdx s r₁ st₂) g
        (g.blocks.getD bIdx deadBlock).index
        (fun s r₁ st₂ st₃ hc => ih s r₁ st₂ st₃ hc)
        (g.blocks.getD bIdx deadBlock).succs r _ stB h
      obtain ⟨hlen, hq⟩ := hf
      simp only [List.length_set] at hlen hq
      refine ⟨hlen, fun q hql hqr => ?_⟩
      rw [hq q hql hqr]
      exact List.getElem?_set_ne (fun he => hqr he.symm)
    · rw [if_neg hlive] at h
      simp only [Option.some.injEq] at h
      rw [← h]
      exact ⟨Nat.le_refl _, fun q _ _ => rfl⟩

/-- Claim C8: state forking at branches is sound.  Part 1 (frame): a
successor's whole analysis, run on the reference it was handed, never
modifies any other pre-existing map; since every non-last successor is
handed a freshly allocated copy, mutations made inside one successor's
subtree are never observed in the state passed to a sibling.  Part 2: in
the successor loop, analyzing a non-last successor leaves the parent's map
at reference r exactly as it was at block exit, so the last successor
receives the parent's own reference with its block-exit content regardless
of what earlier siblings' analyses did. -/
theorem c8_state_forking :
    (∀ (fuel : Nat) (g : CFG) (errIdx : List Nat) (bIdx r : Nat) (stA stB : EngineSt),
      checkBlockForLogsAndReturns fuel g errIdx bIdx r stA = some stB →
      stA.store.length ≤ stB.store.length ∧
      ∀ q, q < stA.store.length → q ≠ r → stB.store[q]? = stA.store[q]?) ∧
    (∀ (fuel : Nat) (g : CFG) (errIdx : List Nat) (bIndex r s : Nat) (rest : List Nat)
        (stA stB : EngineSt),
      r < stA.store.length → rest ≠ [] →
      succRun (fun s₁ r₁ st₁ => checkBlockForLogsAndReturns fuel g errIdx s₁ r₁ st₁)
        g bIndex r (s :: rest) stA = some stB →
      ∃ stMid, stMid.store[r]? = stA.store[r]? ∧
        succRun (fun s₁ r₁ st₁ => checkBlockForLogsAndReturns fuel g errIdx s₁ r₁ st₁)
          g bIndex r rest stMid = some stB) := by
  constructor
  · intro fuel g errIdx bIdx r stA stB h
    exact checkBlock_frame g errIdx fuel bIdx r stA stB h
  · intro fuel g errIdx bIndex r s rest stA stB hr hrest h
    have hlast : rest.isEmpty = false := by
      cases rest with
      | nil => exact absurd rfl hrest
      | cons a b => rfl
    simp only [succRun] at h
    split at h
    · split at h
      · exact ⟨stA, rfl, h⟩
      · split at h
        · exact absurd h (by simp)
        · next st₁ hstep =>
          simp only [succChild, hlast, Bool.false_eq_true, if_false] at hstep
          obtain ⟨hlen, hq⟩ := checkBlock_frame g errIdx fuel s _ _ st₁ hstep
          refine ⟨st₁, ?_, h⟩
          have hr2 := hq r (by
            simp only [List.length_append, List.length_cons, List.length_nil,
              Nat.add_zero]
            exact Nat.lt_succ_of_lt hr) (Nat.ne_of_lt hr)
          rw [hr2]
          exact List.getElem?_append_left hr
    · split at h
      · exact absurd h (by simp)
      · next st₁ hstep =>
        simp only [succChild, hlast, Bool.false_eq_true, if_false] at hstep
        obtain ⟨hlen, hq⟩ := checkBlock_frame g errIdx fuel s _ _ st₁ hstep
        refine ⟨st₁, ?_, h⟩
        have hr2 := hq r (by
          simp only [List.length_append, List.length_cons, List.length_nil,
            Nat.add_zero]
          exact Nat.lt_succ_of_lt hr) (Nat.ne_of_lt hr)
        rw [hr2]
        exact List.getElem?_append_left hr

/-- Claim C8, witness: on the branching CFG the whole analysis leaves the
pre-existing map at index 1 untouched, and the non-last successor's
analysis leaves the parent's map at reference 0 untouched for the last
successor. -/
theorem c8_witness :
    checkBlockForLogsAndReturns 3 gBranch [] 0 0 stInit2 = some stEx ∧
      stEx.store[1]? = stInit2.store[1]? ∧
      succRun (fun s₁ r₁ st₁ => checkBlockForLogsAndReturns 3 gBranch [] s₁ r₁ st₁)
        gBranch 0 0 [1, 2] stInit2 = some stEx ∧
      (∃ stMid, stMid.store[0]? = stInit2.store[0]? ∧
        succRun (fun s₁ r₁ st₁ => checkBlockForLogsAndReturns 3 gBranch [] s₁ r₁ st₁)
          gBranch 0 0 [2] stMid = some stEx) :=
  ⟨by decide,
    (c8_state_forking.1 3 gBranch [] 0 0 stInit2 stEx (by decide)).2 1 (by decide) (by decide),
    by decide,
    c8_state_forking.2 3 gBranch [] 0 0 1 [2] stInit2 stEx (by decide) (by decide) (by decide)⟩

/-- Entries reachable after an insert-or-replace. -/
theorem mem_aupsert [DecidableEq κ] {kv : κ × β} {k : κ} {v : β} :
    ∀ {c : List (κ × β)}, kv ∈ aupsert k v c → kv = (k, v) ∨ kv ∈ c := by
  intro c
  induction c with
  | nil => intro h; simpa [aupsert] using h
  | cons hd tl ih =>
    intro h
    by_cases h1 : hd.1 = k
    · rw [show aupsert k v (hd :: tl) = (k, v) :: tl from by simp [aupsert, h1]] at h
      rcases List.mem_cons.mp h with h | h
      · exact Or.inl h
      · exact Or.inr (List.mem_cons_of_mem hd h)
    · rw [show aupsert k v (hd :: tl) = hd :: aupsert k v tl from by simp [aupsert, h1]] at h
      rcases List.mem_cons.mp h with h | h
      · exact Or.inr (by rw [h]; exact List.mem_cons_self hd tl)
      · rcases ih h with h2 | h2
        · exact Or.inl h2
        · exact Or.inr (List.mem_cons_of_mem hd h2)

/-- Inserting a fresh key adds its value to the weight. -/
theorem weight_aupsert_none {k : Nat × Nat} {v : Nat} :
    ∀ {tp : List ((Nat × Nat) × Nat)}, alookup k tp = none →
      weight (aupsert k v tp) = weight tp + v := by
  intro tp
  induction tp with
  | nil => intro _; simp [aupsert, weight]
  | cons hd tl ih =>
    intro h
    by_cases h1 : hd.1 = k
    · simp [alookup, h1] at h
    · simp only [alookup, h1, if_false] at h
      rw [show aupsert k v (hd :: tl) = hd :: aupsert k v tl from by simp [aupsert, h1]]
      simp only [weight, List.map_cons, List.sum_cons] at ih ⊢
      rw [ih h]
      omega

/-- Bumping a present counter adds one to the weight. -/
theorem weight_aupsert_some {k : Nat × Nat} {t : Nat} :
    ∀ {tp : List ((Nat × Nat) × Nat)}, alookup k tp = some t →
      weight (aupsert k (t + 1) tp) = weight tp + 1 := by
  intro tp
  induction tp with
  | nil => intro h; simp [alookup] at h
  | cons hd tl ih =>
    intro h
    by_cases h1 : hd.1 = k
    · simp only [alookup, h1, if_true, Option.some.injEq] at h
      rw [show aupsert k (t + 1) (hd :: tl) = (k, t + 1) :: tl from by simp [aupsert, h1]]
      simp only [weight, List.map_cons, List.sum_cons, h]
      omega
    · simp only [alookup, h1, if_false] at h
      rw [show aupsert k (t + 1) (hd :: tl) = hd :: aupsert k (t + 1) tl from by
        simp [aupsert, h1]]
      simp only [weight, List.map_cons, List.sum_cons] at ih ⊢
      rw [ih h]
      omega

/-- The traversed-edges invariant survives recording one traversal of a
valid edge. -/
theorem TPInv.aupsert {n : Nat} {tp : List ((Nat × Nat) × Nat)} {k : Nat × Nat} {v : Nat}
    (h : TPInv n tp) (h1 : k.1 < n) (h2 : k.2 < n) (hv : v ≤ 2) :
    TPInv n (aupsert k v tp) := by
  refine ⟨keys_aupsert_nodup h.1, fun kv hkv => ?_⟩
  rcases mem_aupsert hkv with he | he
  · rw [he]
    exact ⟨h1, h2, hv⟩
  · exact h.2 kv he

/-- A weight is bounded by twice the length when every counter is at most
2. -/
theorem weight_le_two_mul_length :
    ∀ tp : List ((Nat × Nat) × Nat), (∀ kv ∈ tp, kv.2 ≤ 2) →
      weight tp ≤ 2 * tp.length
  | [], _ => by simp [weight]
  | hd :: tl, h => by
    have h1 := h hd (List.mem_cons_self hd tl)
    have h2 := weight_le_two_mul_length tl (fun kv hkv => h kv (List.mem_cons_of_mem hd hkv))
    simp only [weight, List.map_cons, List.sum_cons, List.length_cons] at h2 ⊢
    omega

/-- The weight of an invariant-respecting traversed-edges map is bounded by
twice the number of possible edges. -/
theorem TPInv.weight_le {n : Nat} {tp : List ((Nat × Nat) × Nat)} (h : TPInv n tp) :
    weight tp ≤ 2 * (n * n) := by
  have hlen : tp.length ≤ n * n := by
    have hkeys : (tp.map Prod.fst).toFinset.card = tp.length := by
      rw [List.toFinset_card_of_nodup h.1, List.length_map]
    have hsub : (tp.map Prod.fst).toFinset ⊆ Finset.range n ×ˢ Finset.range n := by
      intro x hx
      rw [List.mem_toFinset, List.mem_map] at hx
      obtain ⟨kv, hkv, he⟩ := hx
      obtain ⟨ha, hb, _⟩ := h.2 kv hkv
      rw [← he, Finset.mem_product, Finset.mem_range, Finset.mem_range]
      exact ⟨ha, hb⟩
    have := Finset.card_le_card hsub
    rw [hkeys, Finset.card_product, Finset.card_range] at this
    exact this
  have := weight_le_two_mul_length tp (fun kv hkv => (h.2 kv hkv).2.2)
  omega

/-- In a well-formed CFG, a block's recorded index is its position. -/
theorem wfCFG_index {g : CFG} (h : wfCFG g = true) {i : Nat}
    (hi : i < g.blocks.length) : (g.blocks.getD i deadBlock).index = i := by
  rw [wfCFG, Bool.and_eq_true, Bool.and_eq_true] at h
  have := List.all_eq_true.mp h.1.2 i (List.mem_range.mpr hi)
  simpa using this

/-- In a well-formed CFG, every successor of an existing block exists. -/
theorem wfCFG_succs {g : CFG} (h : wfCFG g = true) {i : Nat}
    (hi : i < g.blocks.length) :
    ∀ s ∈ (g.blocks.getD i deadBlock).succs, s < g.blocks.length := by
  rw [wfCFG, Bool.and_eq_true, Bool.and_eq_true] at h
  intro s hs
  have hb : g.blocks.getD i deadBlock ∈ g.blocks := by
    have hg : g.blocks[i]? = some (g.blocks.getD i deadBlock) := by
      simp [List.getD_eq_getElem?_getD, List.getElem?_eq_getElem hi]
    exact List.getElem?_mem hg
  have := List.all_eq_true.mp h.2 _ hb
  have := List.all_eq_true.mp this s hs
  simpa using this

/-- In a well-formed CFG the entry block exists. -/
theorem wfCFG_pos {g : CFG} (h : wfCFG g = true) : 0 < g.blocks.length := by
  rw [wfCFG, Bool.and_eq_true, Bool.and_eq_true] at h
  have := h.1.1
  cases hb : g.blocks with
  | nil => rw [hb] at this; simp at this
  | cons a l => simp [hb]

/-- One successor iteration step: after recording the traversal of a valid
edge, the child analysis succeeds and the loop state keeps the invariant
while the weight grows. -/
theorem succChild_total (g : CFG) (fuel : Nat)
    (recur : Nat → Nat → EngineSt → Option EngineSt)
    (hrec : ∀ s r st, s < g.blocks.length → TPInv g.blocks.length st.tp →
      2 * (g.blocks.length * g.blocks.length) < fuel + weight st.tp →
      ∃ st', recur s r st = some st' ∧ TPInv g.blocks.length st'.tp ∧
        weight st.tp ≤ weight st'.tp)
    (r s : Nat) (isLast : Bool) (st₁ : EngineSt) (hsn : s < g.blocks.length)
    (hinv₁ : TPInv g.blocks.length st₁.tp)
    (hfu : 2 * (g.blocks.length * g.blocks.length) < fuel + weight st₁.tp) :
    ∃ st₂, succChild recur r s isLast st₁ = some st₂ ∧
      TPInv g.blocks.length st₂.tp ∧ weight st₁.tp ≤ weight st₂.tp := by
  by_cases hlast : isLast = true
  · obtain ⟨st₂, h2eq, h2inv, h2w⟩ := hrec s r st₁ hsn hinv₁ hfu
    exact ⟨st₂, by rw [succChild, if_pos hlast]; exact h2eq, h2inv, h2w⟩
  · obtain ⟨st₂, h2eq, h2inv, h2w⟩ := hrec s st₁.store.length { st₁ with store := st₁.store ++ [st₁.store.getD r []] } hsn hinv₁ hfu
    refine ⟨st₂, ?_, h2inv, h2w⟩
    rw [succChild, if_neg hlast]
    exact h2eq

/-- Totality of the successor loop under the edge-counter bound: provided
the recursive analysis succeeds whenever enough fuel remains for the
recorded weight, the loop succeeds, preserves the invariant and never
decreases the weight. -/
theorem succRun_total (g : CFG) (hwf : wfCFG g = true) (fuel : Nat)
    (recur : Nat → Nat → EngineSt → Option EngineSt) (bIndex : Nat)
    (hrec : ∀ s r st, s < g.blocks.length → TPInv g.blocks.length st.tp →
      2 * (g.blocks.length * g.blocks.length) < fuel + weight st.tp →
      ∃ st', recur s r st = some st' ∧ TPInv g.blocks.length st'.tp ∧
        weight st.tp ≤ weight st'.tp)
    (hb : bIndex < g.blocks.length) :
    ∀ (succs : List Nat), (∀ s ∈ succs, s < g.blocks.length) →
      ∀ (r : Nat) (st : EngineSt), TPInv g.blocks.length st.tp →
      2 * (g.blocks.length * g.blocks.length) ≤ fuel + weight st.tp →
      ∃ st', succRun recur g bIndex r succs st = some st' ∧
        TPInv g.blocks.length st'.tp ∧ weight st.tp ≤ weight st'.tp := by
  intro succs
  induction succs with
  | nil =>
    intro _ r st hinv _
    exact ⟨st, by simp [succRun], hinv, Nat.le_refl _⟩
  | cons s rest ih =>
    intro hss r st hinv hfuel
    have hsn : s < g.blocks.length := hss s (List.mem_cons_self s rest)
    have hkey : (g.blocks.getD s deadBlock).index = s := wfCFG_index hwf hsn
    have hrest : ∀ x ∈ rest, x < g.blocks.length :=
      fun x hx => hss x (List.mem_cons_of_mem s hx)
    cases halk : alookup (bIndex, (g.blocks.getD s deadBlock).index) st.tp with
    | some times =>
      by_cases ht : times > 1
      · obtain ⟨st', h1, h2, h3⟩ := ih hrest r st hinv hfuel
        refine ⟨st', ?_, h2, h3⟩
        simp only [succRun, halk]
        rw [if_pos ht]
        exact h1
      · have hw : weight (aupsert (bIndex, (g.blocks.getD s deadBlock).index) (times + 1) st.tp) = weight st.tp + 1 := weight_aupsert_some halk
        have hinv₁ : TPInv g.blocks.length (aupsert (bIndex, (g.blocks.getD s deadBlock).index) (times + 1) st.tp) :=
          hinv.aupsert hb (by rw [hkey]; exact hsn) (by omega)
        obtain ⟨st₂, hceq, hinv₂, hw₂⟩ := succChild_total g fuel recur hrec r s
          rest.isEmpty { st with tp := aupsert (bIndex, (g.blocks.getD s deadBlock).index) (times + 1) st.tp }
          hsn hinv₁ (by simp only [hw]; omega)
        rw [show ({ st with tp := aupsert (bIndex, (g.blocks.getD s deadBlock).index) (times + 1) st.tp } : EngineSt).tp = aupsert (bIndex, (g.blocks.getD s deadBlock).index) (times + 1) st.tp from rfl, hw] at hw₂
        obtain ⟨st₃, h3eq, hinv₃, hw₃⟩ := ih hrest r st₂ hinv₂ (by omega)
        refine ⟨st₃, ?_, hinv₃, by omega⟩
        simp only [succRun, halk]
        rw [if_neg ht, hceq]
        exact h3eq
    | none =>
      have hw : weight (aupsert (bIndex, (g.blocks.getD s deadBlock).index) 1 st.tp) = weight st.tp + 1 := weight_aupsert_none halk
      have hinv₁ : TPInv g.blocks.length (aupsert (bIndex, (g.blocks.getD s deadBlock).index) 1 st.tp) :=
        hinv.aupsert hb (by rw [hkey]; exact hsn) (by omega)
      obtain ⟨st₂, hceq, hinv₂, hw₂⟩ := succChild_total g fuel recur hrec r s
        rest.isEmpty { st with tp := aupsert (bIndex, (g.blocks.getD s deadBlock).index) 1 st.tp }
        hsn hinv₁ (by simp only [hw]; omega)
      rw [show ({ st with tp := aupsert (bIndex, (g.blocks.getD s deadBlock).index) 1 st.tp } : EngineSt).tp = aupsert (bIndex, (g.blocks.getD s deadBlock).index) 1 st.tp from rfl, hw] at hw₂
      obtain ⟨st₃, h3eq, hinv₃, hw₃⟩ := ih hrest r st₂ hinv₂ (by omega)
      refine ⟨st₃, ?_, hinv₃, by omega⟩
      simp only [succRun, halk]
      rw [hceq]
      exact h3eq

/-- Totality of the block traversal: on a well-formed CFG, fuel exceeding
the remaining edge-traversal capacity guarantees the recursion completes
and keeps the edge-counter invariant. -/
theorem checkBlock_total (g : CFG) (hwf : wfCFG g = true) (errIdx : List Nat) :
    ∀ (fuel bIdx r : Nat) (st : EngineSt), bIdx < g.blocks.length →
      TPInv g.blocks.length st.tp →
      2 * (g.blocks.length * g.blocks.length) < fuel + weight st.tp →
      ∃ st', checkBlockForLogsAndReturns fuel g errIdx bIdx r st = some st' ∧
        TPInv g.blocks.length st'.tp ∧ weight st.tp ≤ weight st'.tp := by
  intro fuel
  induction fuel with
  | zero =>
    intro bIdx r st hb hinv hf
    exact absurd hf (by have := hinv.weight_le; omega)
  | succ fuel ih =>
    intro bIdx r st hb hinv hf
    by_cases hlive : (g.blocks.getD bIdx deadBlock).live = true
    · obtain ⟨st', h1, h2, h3⟩ := succRun_total g hwf fuel
        (fun s r₁ st₂ => checkBlockForLogsAndReturns fuel g errIdx s r₁ st₂)
        (g.blocks.getD bIdx deadBlock).index
        (fun s r₁ st₂ hs hi hfu => ih s r₁ st₂ hs hi hfu)
        (by rw [wfCFG_index hwf hb]; exact hb)
        (g.blocks.getD bIdx deadBlock).succs (wfCFG_succs hwf hb) r
        ⟨st.store.set r (runNodes errIdx (g.blocks.getD bIdx deadBlock).nodes (st.store.getD r []) st.diags).1, (runNodes errIdx (g.blocks.getD bIdx deadBlock).nodes (st.store.getD r []) st.diags).2, st.tp⟩
        hinv (show 2 * (g.blocks.length * g.blocks.length) ≤ fuel + weight st.tp by omega)
      refine ⟨st', ?_, h2, h3⟩
      simp only [checkBlockForLogsAndReturns]
      rw [if_pos hlive]
      exact h1
    · refine ⟨st, ?_, hinv, Nat.le_refl _⟩
      simp only [checkBlockForLogsAndReturns]
      rw [if_neg hlive]

/-- Claim C7: the CFG traversal of the log-or-return policy keeps one
counter per (source-block, target-block) edge and traverses an edge only
while its counter is below 2, so every edge is traversed at most twice
(every final counter is at most 2) and the recursion terminates on every
well-formed CFG, cyclic successor graphs included: fuel covering twice the
number of possible edges always suffices. -/
theorem c7_bounded_traversal (g : CFG) (errIdx : List Nat) (hwf : wfCFG g = true) :
    ∃ st', lintLogOrReturnErrors (2 * (g.blocks.length * g.blocks.length) + 1) errIdx g =
        some st' ∧ ∀ kv ∈ st'.tp, kv.2 ≤ 2 := by
  obtain ⟨st', h1, h2, _⟩ := checkBlock_total g hwf errIdx
    (2 * (g.blocks.length * g.blocks.length) + 1) 0 0 ⟨[[]], [], []⟩ (wfCFG_pos hwf)
    ⟨by simp, by simp⟩ (by simp [weight])
  exact ⟨st', h1, fun kv hkv => (h2.2 kv hkv).2.2⟩

/-- Claim C7, witness: on the concrete cyclic CFG the traversal with the
computed fuel terminates with every edge counter at most 2. -/
theorem c7_witness :
    wfCFG gCyc = true ∧
      (∃ st', lintLogOrReturnErrors (2 * (gCyc.blocks.length * gCyc.blocks.length) + 1)
          [] gCyc = some st' ∧ ∀ kv ∈ st'.tp, kv.2 ≤ 2) :=
  ⟨by decide, c7_bounded_traversal gCyc [] (by decide)⟩

/-- Inserting one key leaves lookups of other keys unchanged. -/
theorem alookup_aupsert_ne [DecidableEq κ] {k o : κ} (h : k ≠ o) (v : β) :
    ∀ c : List (κ × β), alookup o (aupsert k v c) = alookup o c
  | [] => by simp [aupsert, alookup, h]
  | hd :: tl => by
    by_cases h1 : hd.1 = k
    · rw [show aupsert k v (hd :: tl) = (k, v) :: tl from by simp [aupsert, h1]]
      have h2 : ¬(hd.1 = o) := by rw [h1]; exact h
      simp [alookup, h2, h]
    · rw [show aupsert k v (hd :: tl) = hd :: aupsert k v tl from by simp [aupsert, h1]]
      by_cases h2 : hd.1 = o
      · simp [alookup, h2]
      · simp only [alookup, h2, if_false]
        exact alookup_aupsert_ne h v tl

/-- Marking assignment left-hand sides that never resolve to o keeps o out
of the state. -/
theorem markAssignLhs_noKey (o : Obj) :
    ∀ (lhs : List Node) (m : LoggedMap), lhs.any (isAssignLhsOf o) = false →
      alookup o m = none → alookup o (markAssignLhs lhs m) = none
  | [], _, _, hm => hm
  | n :: rest, m, h, hm => by
    simp only [List.any_cons, Bool.or_eq_false_iff] at h
    match n with
    | .ident nm q ob =>
      match ob with
      | some o₁ =>
        by_cases hty : (o₁.typeStr == "error") = true
        · have hne : o₁ ≠ o := by
            intro he
            subst he
            have h1 := h.1
            simp [isAssignLhsOf, hty] at h1
          simp only [markAssignLhs, hty, if_true]
          exact markAssignLhs_noKey o rest _ h.2 (by rw [alookup_aupsert_ne hne]; exact hm)
        · simp only [Bool.not_eq_true] at hty
          simp only [markAssignLhs, hty, Bool.false_eq_true, if_false]
          exact markAssignLhs_noKey o rest m h.2 hm
      | none => exact markAssignLhs_noKey o rest m h.2 hm
    | .selector _ _ => exact markAssignLhs_noKey o rest m h.2 hm
    | .star _ => exact markAssignLhs_noKey o rest m h.2 hm
    | .unary _ => exact markAssignLhs_noKey o rest m h.2 hm
    | .paren _ => exact markAssignLhs_noKey o rest m h.2 hm
    | .index _ _ => exact markAssignLhs_noKey o rest m h.2 hm
    | .typeAssert _ => exact markAssignLhs_noKey o rest m h.2 hm
    | .call _ _ => exact markAssignLhs_noKey o rest m h.2 hm
    | .keyValue _ _ => exact markAssignLhs_noKey o rest m h.2 hm
    | .compositeLit _ => exact markAssignLhs_noKey o rest m h.2 hm
    | .basicLit _ => exact markAssignLhs_noKey o rest m h.2 hm
    | .funcLit _ => exact markAssignLhs_noKey o rest m h.2 hm
    | .assign _ _ => exact markAssignLhs_noKey o rest m h.2 hm
    | .ret _ => exact markAssignLhs_noKey o rest m h.2 hm
    | .exprStmt _ => exact markAssignLhs_noKey o rest m h.2 hm

mutual
/-- The logger-call scan only re-marks symbols already present, so a
symbol absent from the state stays absent. -/
theorem scanLogCall_noKey (o : Obj) : ∀ (n : Node) (m : LoggedMap) (ds : List Diag),
    alookup o m = none → alookup o (scanLogCall n m ds).1 = none
  | .ident _ pos obj, m, ds, hm => by
    cases obj with
    | none => exact hm
    | some o₁ =>
      match halk : alookup o₁ m with
      | none => simp only [scanLogCall, halk]; exact hm
      | some (some prev) => simp only [scanLogCall, halk]; exact hm
      | some none =>
        have hne : o₁ ≠ o := by
          intro he
          rw [he, hm] at halk
          exact absurd halk (by simp)
        simp only [scanLogCall, halk]
        rw [alookup_aupsert_ne hne]
        exact hm
  | .basicLit _, _, _, hm => hm
  | .star x, m, ds, hm => scanLogCall_noKey o x m ds hm
  | .unary x, m, ds, hm => scanLogCall_noKey o x m ds hm
  | .paren x, m, ds, hm => scanLogCall_noKey o x m ds hm
  | .typeAssert x, m, ds, hm => scanLogCall_noKey o x m ds hm
  | .exprStmt x, m, ds, hm => scanLogCall_noKey o x m ds hm
  | .selector x sel, m, ds, hm =>
    scanLogCall_noKey o sel _ _ (scanLogCall_noKey o x m ds hm)
  | .index x idx, m, ds, hm =>
    scanLogCall_noKey o idx _ _ (scanLogCall_noKey o x m ds hm)
  | .keyValue k v, m, ds, hm =>
    scanLogCall_noKey o v _ _ (scanLogCall_noKey o k m ds hm)
  | .call fn args, m, ds, hm =>
    scanLogCallList_noKey o args _ _ (scanLogCall_noKey o fn m ds hm)
  | .compositeLit elts, m, ds, hm => scanLogCallList_noKey o elts m ds hm
  | .funcLit body, m, ds, hm => scanLogCallList_noKey o body m ds hm
  | .assign lhs rhs, m, ds, hm =>
    scanLogCallList_noKey o rhs _ _ (scanLogCallList_noKey o lhs m ds hm)
  | .ret results, m, ds, hm => scanLogCallList_noKey o results m ds hm

/-- List version of scanLogCall_noKey. -/
theorem scanLogCallList_noKey (o : Obj) : ∀ (ns : List Node) (m : LoggedMap) (ds : List Diag),
    alookup o m = none → alookup o (scanLogCallList ns m ds).1 = none
  | [], _, _, hm => hm
  | n :: rest, m, ds, hm =>
    scanLogCallList_noKey o rest _ _ (scanLogCall_noKey o n m ds hm)
end

mutual
/-- The outer callback never inserts the symbol o when the node contains
no reachable assignment to o: a symbol absent from the logged-errors state
stays absent. -/
theorem inspectNode_noKey (errIdx : List Nat) (o : Obj) :
    ∀ (n : Node) (m : LoggedMap) (ds : List Diag), assignsTo o n = false →
      alookup o m = none → alookup o (inspectNode errIdx n m ds).1 = none
  | .ident _ _ _, _, _, _, hm => hm
  | .basicLit _, _, _, _, hm => hm
  | .funcLit _, _, _, _, hm => hm
  | .ret results, m, ds, _, hm => hm
  | .star x, m, ds, h, hm =>
    inspectNode_noKey errIdx o x m ds (by simpa [assignsTo] using h) hm
  | .unary x, m, ds, h, hm =>
    inspectNode_noKey errIdx o x m ds (by simpa [assignsTo] using h) hm
  | .paren x, m, ds, h, hm =>
    inspectNode_noKey errIdx o x m ds (by simpa [assignsTo] using h) hm
  | .typeAssert x, m, ds, h, hm =>
    inspectNode_noKey errIdx o x m ds (by simpa [assignsTo] using h) hm
  | .exprStmt x, m, ds, h, hm =>
    inspectNode_noKey errIdx o x m ds (by simpa [assignsTo] using h) hm
  | .selector x sel, m, ds, h, hm => by
    simp only [assignsTo, Bool.or_eq_false_iff] at h
    exact inspectNode_noKey errIdx o sel _ _ h.2
      (inspectNode_noKey errIdx o x m ds h.1 hm)
  | .index x idx, m, ds, h, hm => by
    simp only [assignsTo, Bool.or_eq_false_iff] at h
    exact inspectNode_noKey errIdx o idx _ _ h.2
      (inspectNode_noKey errIdx o x m ds h.1 hm)
  | .keyValue k v, m, ds, h, hm => by
    simp only [assignsTo, Bool.or_eq_false_iff] at h
    exact inspectNode_noKey errIdx o v _ _ h.2
      (inspectNode_noKey errIdx o k m ds h.1 hm)
  | .compositeLit elts, m, ds, h, hm => by
    simp only [assignsTo] at h
    exact inspectNodeList_noKey errIdx o elts m ds h hm
  | .call fn args, m, ds, h, hm => by
    by_cases hl : receiverIsLogger (ObjectFor fn) = true
    · simp only [inspectNode, hl, if_true]
      exact scanLogCall_noKey o (.call fn args) m ds hm
    · simp only [Bool.not_eq_true] at hl
      simp only [assignsTo, hl, Bool.false_eq_true, if_false,
        Bool.or_eq_false_iff] at h
      simp only [inspectNode, hl, Bool.false_eq_true, if_false]
      exact inspectNodeList_noKey errIdx o args _ _ h.2
        (inspectNode_noKey errIdx o fn m ds h.1 hm)
  | .assign lhs rhs, m, ds, h, hm => by
    simp only [assignsTo, Bool.or_eq_false_iff] at h
    exact inspectNodeList_noKey errIdx o rhs _ _ h.2
      (inspectNodeList_noKey errIdx o lhs _ _ h.1.2
        (markAssignLhs_noKey o lhs m h.1.1 hm))

/-- List version of inspectNode_noKey. -/
theorem inspectNodeList_noKey (errIdx : List Nat) (o : Obj) :
    ∀ (ns : List Node) (m : LoggedMap) (ds : List Diag), assignsToList o ns = false →
      alookup o m = none → alookup o (inspectNodeList errIdx ns m ds).1 = none
  | [], _, _, _, hm => hm
  | n :: rest, m, ds, h, hm => by
    simp only [assignsToList, Bool.or_eq_false_iff] at h
    exact inspectNodeList_noKey errIdx o rest _ _ h.2
      (inspectNode_noKey errIdx o n m ds h.1 hm)
end

/-- Setting a map without the key o keeps the store free of o. -/
theorem StoreNoKey.set {o : Obj} {store : List LoggedMap} {v : LoggedMap}
    (h : StoreNoKey o store) (r : Nat) (hv : alookup o v = none) :
    StoreNoKey o (store.set r v) := by
  intro m hm
  rcases List.mem_or_eq_of_mem_set hm with hm | hm
  · exact h m hm
  · rw [hm]; exact hv

/-- Appending a map without the key o keeps the store free of o. -/
theorem StoreNoKey.push {o : Obj} {store : List LoggedMap} {v : LoggedMap}
    (h : StoreNoKey o store) (hv : alookup o v = none) :
    StoreNoKey o (store ++ [v]) := by
  intro m hm
  rcases List.mem_append.mp hm with hm | hm
  · exact h m hm
  · rw [show m = v from by simpa using hm]; exact hv

/-- Reading any reference of a store free of o yields a map without o. -/
theorem StoreNoKey.getD {o : Obj} {store : List LoggedMap}
    (h : StoreNoKey o store) (r : Nat) : alookup o (store.getD r []) = none := by
  cases hr : store[r]? with
  | none => simp [List.getD, hr, alookup]
  | some m =>
    have := h m (List.getElem?_mem hr)
    simpa [List.getD, hr] using this

/-- The successor loop keeps every store map free of the symbol o,
provided the recursive analysis does. -/
theorem succRun_noKey (o : Obj) (recur : Nat → Nat → EngineSt → Option EngineSt)
    (g : CFG) (bIndex : Nat)
    (hrec : ∀ s r st st', recur s r st = some st' → StoreNoKey o st.store →
      StoreNoKey o st'.store) :
    ∀ (succs : List Nat) (r : Nat) (st st' : EngineSt),
      succRun recur g bIndex r succs st = some st' → StoreNoKey o st.store →
      StoreNoKey o st'.store := by
  intro succs
  induction succs with
  | nil =>
    intro r st st' h hall
    simp only [succRun, Option.some.injEq] at h
    rw [← h]
    exact hall
  | cons s rest ih =>
    intro r st st' h hall
    have hchild : ∀ (stA stB : EngineSt), succChild recur r s rest.isEmpty stA = some stB →
        StoreNoKey o stA.store → StoreNoKey o stB.store := by
      intro stA stB hc hallA
      by_cases hlast : rest.isEmpty = true
      · rw [succChild, if_pos hlast] at hc
        exact hrec s r stA stB hc hallA
      · rw [succChild, if_neg hlast] at hc
        exact hrec s stA.store.length { stA with store := stA.store ++ [stA.store.getD r []] }
          stB hc (hallA.push (hallA.getD r))
    simp only [succRun] at h
    split at h
    · split at h
      · exact ih r st st' h hall
      · split at h
        · exact absurd h (by simp)
        · next st₁ hstep =>
          exact ih r st₁ st' h (hchild _ st₁ hstep hall)
    · split at h
      · exact absurd h (by simp)
      · next st₁ hstep =>
        exact ih r st₁ st' h (hchild _ st₁ hstep hall)

/-- On a CFG with no reachable assignment to the symbol o, the traversal
keeps every store map free of o. -/
theorem checkBlock_noKey (g : CFG) (errIdx : List Nat) (o : Obj)
    (hg : noAssignOfCFG o g = true) :
    ∀ (fuel : Nat) (bIdx r : Nat) (st st' : EngineSt),
      checkBlockForLogsAndReturns fuel g errIdx bIdx r st = some st' →
      StoreNoKey o st.store → StoreNoKey o st'.store := by
  intro fuel
  induction fuel with
  | zero => intro bIdx r st st' h; simp [checkBlockForLogsAndReturns] at h
  | succ fuel ih =>
    intro bIdx r st st' h hall
    rw [checkBlockForLogsAndReturns] at h
    by_cases hlive : (g.blocks.getD bIdx deadBlock).live = true
    · rw [if_pos hlive] at h
      have hnodes : assignsToList o (g.blocks.getD bIdx deadBlock).nodes = false := by
        cases hb : g.blocks[bIdx]? with
        | none =>
          simp [List.getD, hb, deadBlock, assignsToList]
        | some b =>
          have hmem : b ∈ g.blocks := List.getElem?_mem hb
          have := (List.all_eq_true.mp hg) b hmem
          simpa [List.getD, hb] using this
      have hv : alookup o (runNodes errIdx (g.blocks.getD bIdx deadBlock).nodes
          (st.store.getD r []) st.diags).1 = none :=
        inspectNodeList_noKey errIdx o _ _ _ hnodes (hall.getD r)
      exact succRun_noKey o
        (fun s r₁ st₂ => checkBlockForLogsAndReturns fuel g errIdx s r₁ st₂) g
        (g.blocks.getD bIdx deadBlock).index
        (fun s r₁ st₁ st₁' hc hs => ih s r₁ st₁ st₁' hc hs)
        (g.blocks.getD bIdx deadBlock).succs r _ st' h (hall.set r hv)
    · rw [if_neg hlive] at h
      simp only [Option.some.injEq] at h
      rw [← h]
      exact hall

/-- Claim C10: the log-or-return analysis only tracks error symbols
assigned within the analyzed function, so an error-typed value never
assigned there (a parameter or package-level variable) is exempt even when
the function assigns and tracks other error symbols.  Part 1 (any
function): if the symbol o is never a reachable assignment left-hand side,
then o is absent from every map of the final store - and since the store
only grows and entries are never deleted, o never entered the
logged-errors state, the precondition of both report sites.  Part 2: in
err2 := doX(); logger.Warn(errp); logger.Error(errp); logger.Warn(err2);
return errp, where errp is never assigned but err2 is assigned and
tracked, logging errp, logging it a second time, and returning it produce
no diagnostic at all - the run ends with err2 tracked as logged and an
empty diagnostic list.  Part 3 (contrast): the same double logging applied
to the assigned symbol err2 does produce the logged-twice diagnostic. -/
theorem c10_unassigned_exempt :
    (∀ (fuel : Nat) (g : CFG) (errIdx : List Nat) (o : Obj) (st' : EngineSt),
      noAssignOfCFG o g = true →
      lintLogOrReturnErrors fuel errIdx g = some st' →
      ∀ m ∈ st'.store, alookup o m = none) ∧
    (∀ (o oErr2 oDoX2 oWa oWb : Obj) (lgObj : Option Obj)
        (p1 p2 p3 p4 p5 p6 p7 p8 p9 p10 p11 p12 : Nat),
      oErr2.typeStr = "error" →
      oWa.recvTypeStr = some "github.com/Khan/webapp/pkg/lib/log.Logger" →
      oWb.recvTypeStr = some "github.com/Khan/webapp/pkg/lib/log.Logger" →
      receiverIsLogger (some oDoX2) = false →
      o ≠ oErr2 → oWa ≠ oErr2 → oWb ≠ oErr2 → lgObj ≠ some oErr2 →
      lintLogOrReturnErrors 1 (errorResultIndices (some [⟨[], some "error"⟩]))
          ⟨[⟨true, c10ExemptBody o oErr2 oDoX2 oWa oWb lgObj
            p1 p2 p3 p4 p5 p6 p7 p8 p9 p10 p11 p12, [], 0⟩]⟩ =
        some ⟨[[(oErr2, some p11)]], [], []⟩) ∧
    (∀ (oErr2 oDoX2 oWa oWb : Obj) (lgObj : Option Obj)
        (p1 p2 p3 p4 p5 p6 p7 p8 : Nat),
      oErr2.typeStr = "error" →
      oWa.recvTypeStr = some "github.com/Khan/webapp/pkg/lib/log.Logger" →
      oWb.recvTypeStr = some "github.com/Khan/webapp/pkg/lib/log.Logger" →
      receiverIsLogger (some oDoX2) = false →
      oWa ≠ oErr2 → oWb ≠ oErr2 → lgObj ≠ some oErr2 →
      lintLogOrReturnErrors 1 (errorResultIndices (some [⟨[], some "error"⟩]))
          ⟨[⟨true, c10TrackedBody oErr2 oDoX2 oWa oWb lgObj
            p1 p2 p3 p4 p5 p6 p7 p8, [], 0⟩]⟩ =
        some ⟨[[(oErr2, some p5)]], [⟨p8, loggedTwiceMsg p5⟩], []⟩) := by
  refine ⟨?_, ?_, ?_⟩
  · intro fuel g errIdx o st' hg hrun
    refine checkBlock_noKey g errIdx o hg fuel 0 0 ⟨[[]], [], []⟩ st' hrun ?_
    intro m hm
    have hme : m = [] := by simpa using hm
    rw [hme]
    rfl
  · intro o oErr2 oDoX2 oWa oWb lgObj p1 p2 p3 p4 p5 p6 p7 p8 p9 p10 p11 p12
      h1 h2 h3 h4 h5 h6 h7 h8
    have h5' : ¬(oErr2 = o) := fun h => h5 h.symm
    have h6' : ¬(oErr2 = oWa) := fun h => h6 h.symm
    have h7' : ¬(oErr2 = oWb) := fun h => h7 h.symm
    have hwa : receiverIsLogger (some oWa) = true := by
      simp [receiverIsLogger, h2]
    have hwb : receiverIsLogger (some oWb) = true := by
      simp [receiverIsLogger, h3]
    cases lgObj with
    | none =>
      simp [lintLogOrReturnErrors, checkBlockForLogsAndReturns, c10ExemptBody,
        runNodes, inspectNodeList, inspectNode, markAssignLhs, h1, ObjectFor,
        hwa, hwb, h4, scanLogCall, scanLogCallList, alookup, aupsert, h5', h6',
        h7', scanReturnIndices, scanReturnValue, errorResultIndices,
        errorResultIndicesAux, succRun, deadBlock]
    | some lo =>
      have h8' : ¬(oErr2 = lo) := fun h => h8 (by rw [h])
      simp [lintLogOrReturnErrors, checkBlockForLogsAndReturns, c10ExemptBody,
        runNodes, inspectNodeList, inspectNode, markAssignLhs, h1, ObjectFor,
        hwa, hwb, h4, scanLogCall, scanLogCallList, alookup, aupsert, h5', h6',
        h7', h8', scanReturnIndices, scanReturnValue, errorResultIndices,
        errorResultIndicesAux, succRun, deadBlock]
  · intro oErr2 oDoX2 oWa oWb lgObj p1 p2 p3 p4 p5 p6 p7 p8 h1 h2 h3 h4 h6 h7 h8
    have h6' : ¬(oErr2 = oWa) := fun h => h6 h.symm
    have h7' : ¬(oErr2 = oWb) := fun h => h7 h.symm
    have hwa : receiverIsLogger (some oWa) = true := by
      simp [receiverIsLogger, h2]
    have hwb : receiverIsLogger (some oWb) = true := by
      simp [receiverIsLogger, h3]
    cases lgObj with
    | none =>
      simp [lintLogOrReturnErrors, checkBlockForLogsAndReturns, c10TrackedBody,
        runNodes, inspectNodeList, inspectNode, markAssignLhs, h1, ObjectFor,
        hwa, hwb, h4, scanLogCall, scanLogCallList, alookup, aupsert, h6', h7',
        scanReturnIndices, scanReturnValue, errorResultIndices,
        errorResultIndicesAux, succRun, deadBlock]
    | some lo =>
      have h8' : ¬(oErr2 = lo) := fun h => h8 (by rw [h])
      simp [lintLogOrReturnErrors, checkBlockForLogsAndReturns, c10TrackedBody,
        runNodes, inspectNodeList, inspectNode, markAssignLhs, h1, ObjectFor,
        hwa, hwb, h4, scanLogCall, scanLogCallList, alookup, aupsert, h6', h7',
        h8', scanReturnIndices, scanReturnValue, errorResultIndices,
        errorResultIndicesAux, succRun, deadBlock]

/-- Claim C10, witness: in the concrete function that assigns and tracks
the error symbol err2, the never-assigned error symbol errp is logged,
logged twice, and returned with no diagnostic and never enters any map of
the store; the contrast run double-logging the assigned err2 does report
logged-twice. -/
theorem c10_witness :
    noAssignOfCFG oErrP gC10b = true ∧
      lintLogOrReturnErrors 1 (errorResultIndices (some [⟨[], some "error"⟩])) gC10b =
        some ⟨[[(oErrQ, some 52)]], [], []⟩ ∧
      (∀ m ∈ (⟨[[(oErrQ, some 52)]], [], []⟩ : EngineSt).store, alookup oErrP m = none) ∧
      lintLogOrReturnErrors 1 (errorResultIndices (some [⟨[], some "error"⟩])) gC10c =
        some ⟨[[(oErrQ, some 42)]], [⟨47, loggedTwiceMsg 42⟩], []⟩ :=
  ⟨by decide,
    c10_unassigned_exempt.2.1 oErrP oErrQ oDoY oWarnM oErrorM none
      30 31 40 41 42 45 46 47 50 51 52 60 rfl rfl rfl (by decide) (by decide)
      (by decide) (by decide) (by decide),
    c10_unassigned_exempt.1 1 gC10b (errorResultIndices (some [⟨[], some "error"⟩]))
      oErrP ⟨[[(oErrQ, some 52)]], [], []⟩ (by decide) (by decide),
    c10_unassigned_exempt.2.2 oErrQ oDoY oWarnM oErrorM none
      30 31 40 41 42 45 46 47 rfl rfl rfl (by decide) (by decide) (by decide)
      (by decide)⟩
